import Mathlib

/-!
Formal model of the metadata cleaner in `cleaners.py`.

Files are modelled as lists of byte values (`Bytes := List Nat`).  Each
per-format cleaner is transliterated from the Python source:

* `_clean_rtf` / `_rtf_strip_info` / `_rtf_info_blocks` — RTF handler.
  The file is read in latin-1 text mode (universal newline translation:
  CRLF and lone CR become LF) and written with `newline` set to CRLF
  (every LF becomes CRLF); latin-1 maps all 256 byte values bijectively,
  so the handler is modelled directly on bytes.
* `_clean_jpeg` — JPEG segment walker.  `f.read(k)` for `k < -1` raises
  `ValueError` in CPython, `f.read(-1)` reads the rest of the file; both
  behaviours are modelled (a segment length field of 0 raises, 1 absorbs
  the rest of the file).
* `_clean_png`, `_clean_gif`, `_skip_sub_blocks`, `_copy_sub_blocks` —
  chunk / block walkers.  `packed = f.read(1)` followed by `packed[0]`
  raises `IndexError` at end of file; modelled as an error value.
* `_clean_office_props` / `_hash_office_content` — OOXML handler,
  modelled at the level of ZIP parts (name plus content).  XML payloads
  of the two rewritten control files are modelled as a root element with
  direct children (`ElementTree.findall` with a qualified tag inspects
  direct children only); subtrees of children are opaque since the code
  never descends into them.  SHA-256 is modelled by the byte stream fed
  to it: equal streams give equal digests.
* `_file_type` / `_detect_ooxml_from_zip` — classifier.  The ZIP probe
  is modelled after CPython's `zipfile` table-of-contents reader
  (end-of-central-directory lookup, then central directory walk), for
  archives without Zip64 structures and with byte-identity filename
  decoding; `None`/`BadZipFile` outcomes are modelled as `none`.
* `_replace_file` / `_make_backup_copy` / `_clean_ole_props` — backup
  logic; OLE storages are abstracted to the presence of the two
  property-set streams the code touches.
* `clean_file_metadata` — the dispatcher, in the configuration where
  the optional capabilities (ExifTool, pikepdf, pywin32) are absent;
  branches that depend on an absent capability return unchanged results
  exactly as the source does.

Strings are written as lists of characters to keep the development
uniform over byte values.
-/

/-- Bytes of a file, as natural numbers (each value below 256 in any real file). -/
abbrev Bytes := List Nat

/-- Characters to byte values (used to write ASCII constants legibly). -/
def cb (l : List Char) : Bytes :=
  l.map (fun c => c.toNat)

/-- Python `bytes.startswith` / `str.startswith` on byte lists. -/
def startsWithB : Bytes → Bytes → Bool
  | [], _ => true
  | _ :: _, [] => false
  | p :: ps, s :: ss => p = s && startsWithB ps ss

/-- Equality of `Except` results is decidable (used to evaluate the fallible
handlers on concrete inputs). -/
def exceptDecEq {e a : Type} [DecidableEq e] [DecidableEq a] :
    DecidableEq (Except e a)
  | .error x, .error y =>
    if h : x = y then isTrue (by rw [h]) else isFalse (fun hc => h (by injection hc))
  | .ok x, .ok y =>
    if h : x = y then isTrue (by rw [h]) else isFalse (fun hc => h (by injection hc))
  | .error _, .ok _ => isFalse (fun hc => Except.noConfusion hc)
  | .ok _, .error _ => isFalse (fun hc => Except.noConfusion hc)

instance {e a : Type} [DecidableEq e] [DecidableEq a] : DecidableEq (Except e a) :=
  exceptDecEq

/-- Python substring containment (`pat in s`). -/
def containsB (pat : Bytes) : Bytes → Bool
  | [] => startsWithB pat []
  | s :: ss => startsWithB pat (s :: ss) || containsB pat ss

theorem startsWithB_append (p s t : Bytes) (h : startsWithB p s = true) :
    startsWithB p (s ++ t) = true := by
  induction p generalizing s with
  | nil => simp [startsWithB]
  | cons a ps ih =>
    cases s with
    | nil => simp [startsWithB] at h
    | cons b ss =>
      simp only [startsWithB, Bool.and_eq_true, decide_eq_true_eq] at h ⊢
      exact ⟨h.1, ih ss h.2⟩

theorem startsWithB_length_le (p s : Bytes) (h : startsWithB p s = true) :
    p.length ≤ s.length := by
  induction p generalizing s with
  | nil => simp
  | cons a ps ih =>
    cases s with
    | nil => simp [startsWithB] at h
    | cons b ss =>
      simp only [startsWithB, Bool.and_eq_true] at h
      simpa using ih ss h.2

/-! RTF handler -/

/-- Backslash-i-n-f-o, the control word looked for after an opening brace. -/
def infoWord : Bytes := cb ['\\', 'i', 'n', 'f', 'o']

/-- Group skipper of `_rtf_strip_info` / `_rtf_info_blocks`: from the position
just after the opening brace, a backslash consumes the following character,
braces adjust the depth, and the scan stops when the depth reaches zero or the
input runs out.  Returns the remaining suffix (the text after the group). -/
def groupSkip : Bytes → Nat → Bytes
  | r, 0 => r
  | [], _ + 1 => []
  | c :: r, d + 1 =>
    if c = 92 then groupSkip (r.drop 1) (d + 1)
    else if c = 123 then groupSkip r (d + 2)
    else if c = 125 then groupSkip r d
    else groupSkip r (d + 1)
  termination_by r _ => r.length
  decreasing_by
  · simp [List.length_drop]; omega
  · simp
  · simp
  · simp

theorem groupSkip_length_le (r : Bytes) (d : Nat) :
    (groupSkip r d).length ≤ r.length := by
  have H : ∀ (n : Nat) (r : Bytes) (d : Nat), r.length ≤ n →
      (groupSkip r d).length ≤ r.length := by
    intro n
    induction n with
    | zero =>
      intro r d h
      have : r = [] := List.eq_nil_of_length_eq_zero (Nat.le_zero.mp h)
      subst this
      cases d <;> simp [groupSkip]
    | succ n ih =>
      intro r d h
      match r, d with
      | r, 0 => simp [groupSkip]
      | [], _ + 1 => simp [groupSkip]
      | c :: r, d + 1 =>
        simp only [groupSkip]
        have hr : r.length ≤ n := by simpa using h
        split_ifs with h1 h2 h3
        · refine le_trans (ih _ _ ?_) ?_
          · exact le_trans (by simp) hr
          · simp only [List.length_drop, List.length_cons]; omega
        · exact le_trans (ih _ _ hr) (by simp)
        · exact le_trans (ih _ _ hr) (by simp)
        · exact le_trans (ih _ _ hr) (by simp)
  exact H r.length r d le_rfl

/-- Consumed part of a group scan: `groupTake r d ++ groupSkip r d = r`. -/
def groupTake : Bytes → Nat → Bytes
  | _, 0 => []
  | [], _ + 1 => []
  | c :: r, d + 1 =>
    if c = 92 then c :: (r.take 1 ++ groupTake (r.drop 1) (d + 1))
    else if c = 123 then c :: groupTake r (d + 2)
    else if c = 125 then c :: groupTake r d
    else c :: groupTake r (d + 1)
  termination_by r _ => r.length
  decreasing_by
  · simp [List.length_drop]; omega
  · simp
  · simp
  · simp

theorem groupTake_append_skip (r : Bytes) (d : Nat) :
    groupTake r d ++ groupSkip r d = r := by
  have H : ∀ (n : Nat) (r : Bytes) (d : Nat), r.length ≤ n →
      groupTake r d ++ groupSkip r d = r := by
    intro n
    induction n with
    | zero =>
      intro r d h
      have : r = [] := List.eq_nil_of_length_eq_zero (Nat.le_zero.mp h)
      subst this
      cases d <;> simp [groupSkip, groupTake]
    | succ n ih =>
      intro r d h
      match r, d with
      | r, 0 => simp [groupSkip, groupTake]
      | [], _ + 1 => simp [groupSkip, groupTake]
      | c :: r, d + 1 =>
        simp only [groupSkip, groupTake]
        have hr : r.length ≤ n := by simpa using h
        split_ifs with h1 h2 h3
        · have hd : (r.drop 1).length ≤ n := by
            simp only [List.length_drop]; omega
          simp only [List.cons_append, List.append_assoc, ih _ _ hd]
          simp only [List.cons.injEq, true_and]
          exact List.take_append_drop 1 r
        · simp [ih _ _ hr]
        · simp [ih _ _ hr]
        · simp [ih _ _ hr]
  exact H r.length r d le_rfl

/-- Transliteration of `_rtf_strip_info`: returns the stripped text and the
changed flag.  An opening brace followed by the control word `\info` starts a
group skip; a backslash copies itself and the following character without
interpretation; all other characters are copied. -/
def rtfStripInfo : Bytes → Bytes × Bool
  | [] => ([], false)
  | 123 :: r =>
    if startsWithB infoWord r then
      ((rtfStripInfo (groupSkip r 1)).1, true)
    else
      let p := rtfStripInfo r
      (123 :: p.1, p.2)
  | 92 :: x :: r =>
    let p := rtfStripInfo r
    (92 :: x :: p.1, p.2)
  | c :: r =>
    let p := rtfStripInfo r
    (c :: p.1, p.2)
  termination_by s => s.length
  decreasing_by
  · exact Nat.lt_succ_of_le (groupSkip_length_le r 1)
  · simp
  · simp; omega
  · simp

/-- Claim-side segmentation of an RTF text: splits the text into units, each
marked as an `\info` group (`true`) or as ordinary copied text (`false`),
using the same escape and brace-depth rules as the stripper. -/
def rtfSegs : Bytes → List (Bool × Bytes)
  | [] => []
  | 123 :: r =>
    if startsWithB infoWord r then
      (true, 123 :: groupTake r 1) :: rtfSegs (groupSkip r 1)
    else
      (false, [123]) :: rtfSegs r
  | 92 :: x :: r => (false, [92, x]) :: rtfSegs r
  | c :: r => (false, [c]) :: rtfSegs r
  termination_by s => s.length
  decreasing_by
  · exact Nat.lt_succ_of_le (groupSkip_length_le r 1)
  · simp
  · simp; omega
  · simp

theorem rtfSegs_join (s : Bytes) :
    (((rtfSegs s).map (fun g => g.2)).foldr (· ++ ·) []) = s := by
  induction s using rtfSegs.induct with
  | case1 => simp [rtfSegs]
  | case2 r h ih =>
    simp only [rtfSegs, if_pos h, List.map_cons, List.foldr_cons, ih]
    simp [groupTake_append_skip]
  | case3 r h ih =>
    simp [rtfSegs, if_neg h, ih]
  | case4 x r ih =>
    simp [rtfSegs, ih]
  | case5 c r h1 h2 ih =>
    simp [rtfSegs, ih]

theorem rtfStripInfo_fst (s : Bytes) :
    (rtfStripInfo s).1 =
      (((rtfSegs s).filter (fun g => !g.1)).map (fun g => g.2)).foldr (· ++ ·) [] := by
  induction s using rtfSegs.induct with
  | case1 => simp [rtfSegs, rtfStripInfo]
  | case2 r h ih =>
    simp [rtfSegs, rtfStripInfo, if_pos h, ih]
  | case3 r h ih =>
    simp [rtfSegs, rtfStripInfo, if_neg h, ih]
  | case4 x r ih =>
    simp [rtfSegs, rtfStripInfo, ih]
  | case5 c r h1 h2 ih =>
    simp [rtfSegs, rtfStripInfo, ih]

theorem rtfStripInfo_snd (s : Bytes) :
    (rtfStripInfo s).2 = (rtfSegs s).any (fun g => g.1) := by
  induction s using rtfSegs.induct with
  | case1 => simp [rtfSegs, rtfStripInfo]
  | case2 r h ih =>
    simp [rtfSegs, rtfStripInfo, if_pos h]
  | case3 r h ih =>
    simp [rtfSegs, rtfStripInfo, if_neg h, ih]
  | case4 x r ih =>
    simp [rtfSegs, rtfStripInfo, ih]
  | case5 c r h1 h2 ih =>
    simp [rtfSegs, rtfStripInfo, ih]

/-- Universal-newline translation performed when the file is read in text
mode: CRLF and lone CR both become LF. -/
def nlDecode : Bytes → Bytes
  | [] => []
  | 13 :: 10 :: r => 10 :: nlDecode r
  | 13 :: r => 10 :: nlDecode r
  | b :: r => b :: nlDecode r

/-- Newline translation performed on write with `newline` set to CRLF:
every LF becomes CRLF. -/
def crlfEncode : Bytes → Bytes
  | [] => []
  | 10 :: r => 13 :: 10 :: crlfEncode r
  | b :: r => b :: crlfEncode r

theorem nlDecode_cons_ne (b : Nat) (r : Bytes) (h : b ≠ 13) :
    nlDecode (b :: r) = b :: nlDecode r := by
  rw [nlDecode.eq_def]
  split <;> simp_all

theorem crlfEncode_cons_ne (b : Nat) (r : Bytes) (h : b ≠ 10) :
    crlfEncode (b :: r) = b :: crlfEncode r := by
  rw [crlfEncode.eq_def]
  split <;> simp_all

theorem nlDecode_of_no_cr (s : Bytes) (h : 13 ∉ s) : nlDecode s = s := by
  induction s with
  | nil => simp [nlDecode]
  | cons b r ih =>
    have hb : b ≠ 13 := fun hb => h (by simp [hb])
    have hr : 13 ∉ r := fun hm => h (List.mem_cons_of_mem _ hm)
    rw [nlDecode_cons_ne b r hb, ih hr]

theorem crlfEncode_of_no_lf (s : Bytes) (h : 10 ∉ s) : crlfEncode s = s := by
  induction s with
  | nil => simp [crlfEncode]
  | cons b r ih =>
    have hb : b ≠ 10 := fun hb => h (by simp [hb])
    have hr : 10 ∉ r := fun hm => h (List.mem_cons_of_mem _ hm)
    rw [crlfEncode_cons_ne b r hb, ih hr]

/-- Concatenation of the non-`\info` units of the claim-side segmentation:
the bytes the claim says must be copied verbatim. -/
def rtfKeep (s : Bytes) : Bytes :=
  (((rtfSegs s).filter (fun g => !g.1)).map (fun g => g.2)).foldr (· ++ ·) []

/-- Whether the text contains any `\info` group unit. -/
def rtfHasInfo (s : Bytes) : Bool :=
  (rtfSegs s).any (fun g => g.1)

theorem mem_foldr_append {α : Type} (l : List (List α)) (x : α)
    (h : x ∈ l.foldr (· ++ ·) []) : ∃ g ∈ l, x ∈ g := by
  induction l with
  | nil => simp at h
  | cons a l ih =>
    simp only [List.foldr_cons, List.mem_append] at h
    rcases h with h | h
    · exact ⟨a, by simp, h⟩
    · rcases ih h with ⟨g, hg, hx⟩
      exact ⟨g, by simp [hg], hx⟩

theorem rtfKeep_mem (s : Bytes) (x : Nat) (h : x ∈ rtfKeep s) : x ∈ s := by
  unfold rtfKeep at h
  rcases mem_foldr_append _ _ h with ⟨g, hg, hx⟩
  rcases List.mem_map.mp hg with ⟨u, hu, rfl⟩
  have hu2 : u ∈ rtfSegs s := (List.mem_filter.mp hu).1
  rw [← rtfSegs_join s]
  have : ∀ (l : List (Bool × Bytes)) (u : Bool × Bytes), u ∈ l → x ∈ u.2 →
      x ∈ (l.map (fun g => g.2)).foldr (· ++ ·) [] := by
    intro l
    induction l with
    | nil => intro u hu _; simp at hu
    | cons a l ih =>
      intro u hu hx
      rcases List.mem_cons.mp hu with rfl | hu
      · simp [List.mem_append, hx]
      · simp only [List.map_cons, List.foldr_cons, List.mem_append]
        exact Or.inr (ih u hu hx)
  exact this _ u hu2 hx

/-- Byte-level model of `_clean_rtf`: text-mode read (universal newlines),
info-group stripping, and, when something was stripped, text-mode write with
CRLF line endings.  Returns the resulting file bytes and the changed flag
(the file is rewritten only when the flag is true). -/
def cleanRtfBytes (s : Bytes) : Bytes × Bool :=
  let p := rtfStripInfo (nlDecode s)
  if p.2 then (crlfEncode p.1, true) else (s, false)

/-! Index-based transliterations of the two RTF scanners, with an explicit
iteration budget (fuel): one unit of fuel per loop iteration, `none` when the
budget is exhausted.  These state the termination claim: the source loops
finish within a budget linear in the input length. -/

/-- Inner loop of `_rtf_strip_info` / `_rtf_info_blocks`: index `j`, depth
counter, one fuel per iteration; returns the final `j`. -/
def rtfScanJ (s : Bytes) : Nat → Nat → Nat → Option Nat
  | 0, _, _ => none
  | fuel + 1, j, depth =>
    if j < s.length ∧ 0 < depth then
      if s.getD j 0 = 92 then rtfScanJ s fuel (j + 2) depth
      else if s.getD j 0 = 123 then rtfScanJ s fuel (j + 1) (depth + 1)
      else if s.getD j 0 = 125 then rtfScanJ s fuel (j + 1) (depth - 1)
      else rtfScanJ s fuel (j + 1) depth
    else some j

/-- Outer loop of `_rtf_strip_info` with an explicit iteration budget. -/
def rtfStripFuel (s : Bytes) : Nat → Nat → Bytes → Bool → Option (Bytes × Bool)
  | 0, _, _, _ => none
  | fuel + 1, i, out, changed =>
    if i < s.length then
      if s.getD i 0 = 123 ∧ startsWithB infoWord (s.drop (i + 1)) then
        match rtfScanJ s (s.length + 1) (i + 1) 1 with
        | none => none
        | some j => rtfStripFuel s fuel j out true
      else if s.getD i 0 = 92 ∧ i + 1 < s.length then
        rtfStripFuel s fuel (i + 2) (out ++ [s.getD i 0, s.getD (i + 1) 0]) changed
      else rtfStripFuel s fuel (i + 1) (out ++ [s.getD i 0]) changed
    else some (out, changed)

/-- Outer loop of `_rtf_info_blocks` with an explicit iteration budget. -/
def rtfBlocksFuel (s : Bytes) : Nat → Nat → List Bytes → Option (List Bytes)
  | 0, _, _ => none
  | fuel + 1, i, blocks =>
    if i < s.length then
      if s.getD i 0 = 123 ∧ startsWithB infoWord (s.drop (i + 1)) then
        match rtfScanJ s (s.length + 1) (i + 1) 1 with
        | none => none
        | some j => rtfBlocksFuel s fuel j (blocks ++ [(s.drop i).take (j - i)])
      else rtfBlocksFuel s fuel (i + 1) blocks
    else some blocks

theorem rtfScanJ_isSome (s : Bytes) :
    ∀ (fuel j depth : Nat), s.length - j < fuel → (rtfScanJ s fuel j depth).isSome := by
  intro fuel
  induction fuel with
  | zero => intro j depth h; omega
  | succ fuel ih =>
    intro j depth h
    rw [rtfScanJ]
    split_ifs with hc h1 h2 h3
    · exact ih (j + 2) depth (by omega)
    · exact ih (j + 1) (depth + 1) (by omega)
    · exact ih (j + 1) (depth - 1) (by omega)
    · exact ih (j + 1) depth (by omega)
    · simp

theorem rtfScanJ_ge (s : Bytes) :
    ∀ (fuel j depth j' : Nat), rtfScanJ s fuel j depth = some j' → j ≤ j' := by
  intro fuel
  induction fuel with
  | zero => intro j depth j' h; simp [rtfScanJ] at h
  | succ fuel ih =>
    intro j depth j' h
    rw [rtfScanJ] at h
    split_ifs at h with hc h1 h2 h3
    · exact le_trans (by omega) (ih _ _ _ h)
    · exact le_trans (by omega) (ih _ _ _ h)
    · exact le_trans (by omega) (ih _ _ _ h)
    · exact le_trans (by omega) (ih _ _ _ h)
    · simp at h; omega

theorem rtfStripFuel_isSome (s : Bytes) :
    ∀ (fuel i : Nat) (out : Bytes) (changed : Bool),
      s.length - i < fuel → (rtfStripFuel s fuel i out changed).isSome := by
  intro fuel
  induction fuel with
  | zero => intro i out changed h; omega
  | succ fuel ih =>
    intro i out changed h
    rw [rtfStripFuel]
    split_ifs with hi hinfo hesc
    · have hsc : (rtfScanJ s (s.length + 1) (i + 1) 1).isSome :=
        rtfScanJ_isSome s (s.length + 1) (i + 1) 1 (by omega)
      rcases Option.isSome_iff_exists.mp hsc with ⟨j, hj⟩
      rw [hj]
      have hge : i + 1 ≤ j := rtfScanJ_ge s _ _ _ _ hj
      exact ih j out true (by omega)
    · exact ih (i + 2) _ changed (by omega)
    · exact ih (i + 1) _ changed (by omega)
    · simp

theorem rtfBlocksFuel_isSome (s : Bytes) :
    ∀ (fuel i : Nat) (blocks : List Bytes),
      s.length - i < fuel → (rtfBlocksFuel s fuel i blocks).isSome := by
  intro fuel
  induction fuel with
  | zero => intro i blocks h; omega
  | succ fuel ih =>
    intro i blocks h
    rw [rtfBlocksFuel]
    split_ifs with hi hinfo
    · have hsc : (rtfScanJ s (s.length + 1) (i + 1) 1).isSome :=
        rtfScanJ_isSome s (s.length + 1) (i + 1) 1 (by omega)
      rcases Option.isSome_iff_exists.mp hsc with ⟨j, hj⟩
      rw [hj]
      have hge : i + 1 ≤ j := rtfScanJ_ge s _ _ _ _ hj
      exact ih j _ (by omega)
    · exact ih (i + 1) blocks (by omega)
    · simp

/-! JPEG handler -/

/-- Prefix identifying an EXIF APP1 payload. -/
def exifPre : Bytes := cb ['E', 'x', 'i', 'f'] ++ [0, 0]

/-- XMP namespace literal searched for inside an APP1 payload. -/
def xapPat : Bytes :=
  cb ['h','t','t','p',':','/','/','n','s','.','a','d','o','b','e','.','c','o','m','/','x','a','p','/','1','.','0','/']

/-- Prefix identifying a Photoshop (IPTC/PSIR) APP13 payload. -/
def psPre : Bytes := cb ['P','h','o','t','o','s','h','o','p',' ','3','.','0']

/-- The drop test of `_clean_jpeg`: APP1 (`0xE1`) whose payload starts with
the EXIF prefix or contains the XMP literal, or APP13 (`0xED`) whose payload
starts with `Photoshop 3.0`. -/
def jpegDropSeg (m1 : Nat) (d : Bytes) : Bool :=
  (m1 = 225 && (startsWithB exifPre d || containsB xapPat d)) ||
  (m1 = 237 && startsWithB psPre d)

@[simp] theorem except_map_ok {e : Type} {a b : Type} (f : a → b) (x : a) :
    (Except.ok x : Except e a).map f = .ok (f x) := rfl

@[simp] theorem except_map_error {e : Type} {a b : Type} (f : a → b) (err : e) :
    (Except.error err : Except e a).map f = .error err := rfl

/-- Marker-walking loop of `_clean_jpeg` after the SOI bytes: emits the bytes
written to the temp file and the changed flag.  The payload is obtained by
`f.read(length - 2)`: a length field of 0 raises `ValueError` (CPython
rejects read sizes below -1), modelled as `.error`; a length field of 1 is
`f.read(-1)`, which consumes the rest of the file. -/
def jpegLoop : Bytes → Except Unit (Bytes × Bool)
  | [] => .ok ([], false)
  | [_] => .ok ([], false)
  | m0 :: m1 :: rest =>
    if m0 ≠ 255 then .ok ([], false)
    else if m1 = 218 then .ok (m0 :: m1 :: rest, false)
    else if m1 = 216 ∨ m1 = 217 then
      (jpegLoop rest).map (fun p => (m0 :: m1 :: p.1, p.2))
    else
      match rest with
      | [] => .ok ([], false)
      | [_] => .ok ([], false)
      | l0 :: l1 :: r2 =>
        let len := l0 * 256 + l1
        if len = 0 then .error ()
        else
          let seg := if len = 1 then r2 else r2.take (len - 2)
          let rem := if len = 1 then [] else r2.drop (len - 2)
          if jpegDropSeg m1 seg then
            (jpegLoop rem).map (fun p => (p.1, true))
          else
            (jpegLoop rem).map (fun p => (m0 :: m1 :: l0 :: l1 :: (seg ++ p.1), p.2))
  termination_by s => s.length
  decreasing_by
  all_goals simp only [List.length_cons]
  all_goals first
    | omega
    | (split <;> simp only [List.length_nil, List.length_drop] <;> omega)

/-- Transliteration of `_clean_jpeg`: checks the SOI bytes, then walks the
markers; the result is the rewritten file content and the changed flag (the
file is only replaced when the flag is true). -/
def cleanJpeg (s : Bytes) : Except Unit (Bytes × Bool) :=
  if s.take 2 = [255, 216] then
    (jpegLoop (s.drop 2)).map (fun p => (255 :: 216 :: p.1, p.2))
  else .ok ([], false)

/-- A JPEG marker segment as the cleaner's walk sees it: `bare` for the
length-less markers 0xD8/0xD9 met inside the stream, `framed` for a marker
with a 2-byte length field and payload. -/
inductive JSeg where
  | bare (m1 : Nat)
  | framed (m1 l0 l1 : Nat) (data : Bytes)
deriving DecidableEq

/-- Bytes of a segment as they appear in the file. -/
def encodeSeg : JSeg → Bytes
  | .bare m1 => [255, m1]
  | .framed m1 l0 l1 d => 255 :: m1 :: l0 :: l1 :: d

/-- The claim's metadata test on a parsed segment. -/
def isMetaSeg : JSeg → Bool
  | .bare _ => false
  | .framed m1 _ _ d => jpegDropSeg m1 d

/-- Claim-side parse of the marker stream after SOI: the list of segments up
to the scan start (or a malformed point), and the tail that the cleaner
copies verbatim from the SOS marker on (empty when the walk stopped for any
other reason). -/
def parseJpeg : Bytes → Except Unit (List JSeg × Bytes)
  | [] => .ok ([], [])
  | [_] => .ok ([], [])
  | m0 :: m1 :: rest =>
    if m0 ≠ 255 then .ok ([], [])
    else if m1 = 218 then .ok ([], m0 :: m1 :: rest)
    else if m1 = 216 ∨ m1 = 217 then
      (parseJpeg rest).map (fun p => (.bare m1 :: p.1, p.2))
    else
      match rest with
      | [] => .ok ([], [])
      | [_] => .ok ([], [])
      | l0 :: l1 :: r2 =>
        let len := l0 * 256 + l1
        if len = 0 then .error ()
        else
          let seg := if len = 1 then r2 else r2.take (len - 2)
          let rem := if len = 1 then [] else r2.drop (len - 2)
          (parseJpeg rem).map (fun p => (.framed m1 l0 l1 seg :: p.1, p.2))
  termination_by s => s.length
  decreasing_by
  all_goals simp only [List.length_cons]
  all_goals first
    | omega
    | (split <;> simp only [List.length_nil, List.length_drop] <;> omega)

/-- Reassembly dictated by the claim: SOI, the kept segments' bytes in order,
then the verbatim tail; changed is true iff some segment was dropped. -/
def jpegSpec (s : Bytes) : Except Unit (Bytes × Bool) :=
  if s.take 2 = [255, 216] then
    (parseJpeg (s.drop 2)).map (fun p =>
      (255 :: 216 ::
        (((p.1.filter (fun g => !isMetaSeg g)).map encodeSeg).foldr (· ++ ·) [] ++ p.2),
       p.1.any isMetaSeg))
  else .ok ([], false)

theorem jpegLoop_eq_spec (r : Bytes) :
    jpegLoop r =
      (parseJpeg r).map (fun p =>
        ((((p.1.filter (fun g => !isMetaSeg g)).map encodeSeg).foldr (· ++ ·) [] ++ p.2),
         p.1.any isMetaSeg)) := by
  have H : ∀ (n : Nat) (r : Bytes), r.length ≤ n →
      jpegLoop r =
        (parseJpeg r).map (fun p =>
          ((((p.1.filter (fun g => !isMetaSeg g)).map encodeSeg).foldr (· ++ ·) [] ++ p.2),
           p.1.any isMetaSeg)) := by
    intro n
    induction n with
    | zero =>
      intro r h
      have : r = [] := List.eq_nil_of_length_eq_zero (Nat.le_zero.mp h)
      subst this
      simp [jpegLoop, parseJpeg]
    | succ n ih =>
      intro r h
      rcases r with _ | ⟨m0, _ | ⟨m1, rest⟩⟩
      · simp [jpegLoop, parseJpeg]
      · simp [jpegLoop, parseJpeg]
      · rw [jpegLoop.eq_def, parseJpeg.eq_def]
        dsimp only
        by_cases hm0 : m0 ≠ 255
        · simp [if_pos hm0]
        · simp only [if_neg hm0]
          have hm0e : m0 = 255 := not_not.mp hm0
          subst hm0e
          by_cases hsos : m1 = 218
          · simp [if_pos hsos]
          · simp only [if_neg hsos]
            by_cases hbare : m1 = 216 ∨ m1 = 217
            · simp only [if_pos hbare]
              have hrest : rest.length ≤ n := by
                simp only [List.length_cons] at h; omega
              rw [ih rest hrest]
              cases hp : parseJpeg rest with
              | error e => simp
              | ok p =>
                simp [encodeSeg, isMetaSeg]
            · simp only [if_neg hbare]
              rcases rest with _ | ⟨l0, _ | ⟨l1, r2⟩⟩
              · simp
              · simp
              · simp only
                by_cases hlen : l0 * 256 + l1 = 0
                · have h00 : l0 = 0 ∧ l1 = 0 := by omega
                  simp [if_pos h00]
                · have h00 : ¬(l0 = 0 ∧ l1 = 0) := by omega
                  first
                    | simp only [if_neg h00]
                    | simp only [if_neg hlen]
                  have hrem : (if l0 * 256 + l1 = 1 then ([] : Bytes)
                      else r2.drop (l0 * 256 + l1 - 2)).length ≤ n := by
                    simp only [List.length_cons] at h
                    split <;> simp only [List.length_nil, List.length_drop] <;> omega
                  rw [ih _ hrem]
                  cases hp : parseJpeg (if l0 * 256 + l1 = 1 then ([] : Bytes)
                      else r2.drop (l0 * 256 + l1 - 2)) with
                  | error e => simp
                  | ok p =>
                    by_cases hdrop : jpegDropSeg m1
                        (if l0 * 256 + l1 = 1 then r2 else r2.take (l0 * 256 + l1 - 2))
                    · simp [hdrop, isMetaSeg]
                    · simp [hdrop, isMetaSeg, encodeSeg]
  exact H r.length r le_rfl

theorem jpegLoop_idem (r o : Bytes) (c : Bool) (h : jpegLoop r = .ok (o, c)) :
    jpegLoop o = .ok (o, false) := by
  have H : ∀ (n : Nat) (r : Bytes), r.length ≤ n → ∀ (o : Bytes) (c : Bool),
      jpegLoop r = .ok (o, c) → jpegLoop o = .ok (o, false) := by
    intro n
    induction n with
    | zero =>
      intro r hle o c h
      have : r = [] := List.eq_nil_of_length_eq_zero (Nat.le_zero.mp hle)
      subst this
      simp only [jpegLoop, Except.ok.injEq, Prod.mk.injEq] at h
      rw [← h.1]
      simp [jpegLoop]
    | succ n ih =>
      intro r hle o c h
      rcases r with _ | ⟨m0, _ | ⟨m1, rest⟩⟩
      · simp only [jpegLoop, Except.ok.injEq, Prod.mk.injEq] at h
        rw [← h.1]; simp [jpegLoop]
      · simp only [jpegLoop, Except.ok.injEq, Prod.mk.injEq] at h
        rw [← h.1]; simp [jpegLoop]
      · rw [jpegLoop.eq_def] at h
        dsimp only at h
        by_cases hm0 : m0 ≠ 255
        · rw [if_pos hm0] at h
          simp only [Except.ok.injEq, Prod.mk.injEq] at h
          rw [← h.1]; simp [jpegLoop]
        · rw [if_neg hm0] at h
          have hm0e : m0 = 255 := not_not.mp hm0
          subst hm0e
          by_cases hsos : m1 = 218
          · rw [if_pos hsos] at h
            simp only [Except.ok.injEq, Prod.mk.injEq] at h
            rw [← h.1]
            subst hsos
            rw [jpegLoop.eq_def]
            simp
          · rw [if_neg hsos] at h
            by_cases hbare : m1 = 216 ∨ m1 = 217
            · rw [if_pos hbare] at h
              cases hl : jpegLoop rest with
              | error e => rw [hl] at h; simp at h
              | ok p =>
                rw [hl] at h
                simp only [except_map_ok, Except.ok.injEq, Prod.mk.injEq] at h
                obtain ⟨ho, hc⟩ := h
                have hrest : rest.length ≤ n := by
                  simp only [List.length_cons] at hle; omega
                have hi := ih rest hrest p.1 p.2 (by rw [hl])
                rw [← ho]
                rw [jpegLoop.eq_def]
                try dsimp only
                rw [if_neg (by simp : ¬(255 : Nat) ≠ 255)]
                have hs2 : m1 ≠ 218 := hsos
                rw [if_neg hs2, if_pos hbare, hi]
                simp
            · rw [if_neg hbare] at h
              rcases rest with _ | ⟨l0, _ | ⟨l1, r2⟩⟩
              · simp only [Except.ok.injEq, Prod.mk.injEq] at h
                rw [← h.1]; simp [jpegLoop]
              · simp only [Except.ok.injEq, Prod.mk.injEq] at h
                rw [← h.1]; simp [jpegLoop]
              · dsimp only at h
                by_cases hlen : l0 * 256 + l1 = 0
                · rw [if_pos hlen] at h; simp at h
                · rw [if_neg hlen] at h
                  by_cases h1 : l0 * 256 + l1 = 1
                  · -- f.read(-1): the payload is the whole rest, rem is empty
                    rw [if_pos h1] at h
                    simp only [if_pos h1] at h
                    by_cases hdrop : jpegDropSeg m1 r2
                    · rw [if_pos hdrop] at h
                      simp only [jpegLoop, except_map_ok, Except.ok.injEq,
                        Prod.mk.injEq] at h
                      rw [← h.1]; simp [jpegLoop]
                    · rw [if_neg hdrop] at h
                      simp only [jpegLoop, except_map_ok, Except.ok.injEq,
                        Prod.mk.injEq] at h
                      rw [← h.1]
                      rw [jpegLoop.eq_def]
                      try dsimp only
                      rw [if_neg (by simp : ¬(255 : Nat) ≠ 255), if_neg hsos,
                        if_neg hbare]
                      try dsimp only
                      rw [if_neg hlen]
                      simp only [if_pos h1]
                      rw [if_neg (by simpa using hdrop)]
                      simp [jpegLoop]
                  · rw [if_neg h1] at h
                    simp only [if_neg h1] at h
                    set k := l0 * 256 + l1 - 2 with hk
                    by_cases hfull : k ≤ r2.length
                    · -- full payload: the remainder continues after it
                      cases hl : jpegLoop (r2.drop k) with
                      | error e => rw [hl] at h; simp at h
                      | ok p =>
                        rw [hl] at h
                        have hrem : (r2.drop k).length ≤ n := by
                          simp only [List.length_cons] at hle
                          simp only [List.length_drop]; omega
                        have hi := ih _ hrem p.1 p.2 (by rw [hl])
                        have hsegl : (r2.take k).length = k := by
                          simp [List.length_take]; omega
                        by_cases hdrop : jpegDropSeg m1 (r2.take k)
                        · rw [if_pos hdrop] at h
                          simp only [except_map_ok, Except.ok.injEq,
                            Prod.mk.injEq] at h
                          rw [← h.1]
                          exact hi
                        · rw [if_neg hdrop] at h
                          simp only [except_map_ok, Except.ok.injEq,
                            Prod.mk.injEq] at h
                          rw [← h.1]
                          rw [jpegLoop.eq_def]
                          try dsimp only
                          rw [if_neg (by simp : ¬(255 : Nat) ≠ 255), if_neg hsos,
                            if_neg hbare]
                          try dsimp only
                          rw [if_neg hlen]
                          simp only [if_neg h1, ← hk]
                          have htake : (r2.take k ++ p.1).take k = r2.take k := by
                            have h2 := List.take_left (r2.take k) p.1
                            rwa [hsegl] at h2
                          have hdrop2 : (r2.take k ++ p.1).drop k = p.1 := by
                            have h2 := List.drop_left (r2.take k) p.1
                            rwa [hsegl] at h2
                          rw [htake, hdrop2, if_neg (by simpa using hdrop), hi]
                          simp
                    · -- truncated payload: it reached end of file
                      push_neg at hfull
                      have hseg : r2.take k = r2 := List.take_of_length_le (le_of_lt hfull)
                      have hremn : r2.drop k = [] := List.drop_eq_nil_of_le (le_of_lt hfull)
                      rw [hseg, hremn] at h
                      simp only [jpegLoop] at h
                      by_cases hdrop : jpegDropSeg m1 r2
                      · rw [if_pos hdrop] at h
                        simp only [except_map_ok, Except.ok.injEq, Prod.mk.injEq] at h
                        rw [← h.1]; simp [jpegLoop]
                      · rw [if_neg hdrop] at h
                        simp only [except_map_ok, Except.ok.injEq, Prod.mk.injEq] at h
                        rw [← h.1]
                        rw [jpegLoop.eq_def]
                        try dsimp only
                        rw [if_neg (by simp : ¬(255 : Nat) ≠ 255), if_neg hsos,
                          if_neg hbare]
                        try dsimp only
                        rw [if_neg hlen]
                        simp only [if_neg h1, ← hk]
                        rw [List.append_nil]
                        rw [hseg, hremn, if_neg (by simpa using hdrop)]
                        simp [jpegLoop]
  exact H r.length r le_rfl o c h

theorem cleanJpeg_second (s out : Bytes) (c : Bool) (h : cleanJpeg s = .ok (out, c)) :
    ∃ o2, cleanJpeg (if c then out else s) = .ok (o2, false) := by
  cases c with
  | false => exact ⟨out, by simpa using h⟩
  | true =>
    simp only [if_pos]
    unfold cleanJpeg at h
    split_ifs at h with hsoi
    · cases hl : jpegLoop (s.drop 2) with
      | error e => rw [hl] at h; simp at h
      | ok p =>
        rw [hl] at h
        simp only [except_map_ok, Except.ok.injEq, Prod.mk.injEq] at h
        obtain ⟨ho, hc⟩ := h
        have hi := jpegLoop_idem (s.drop 2) p.1 p.2 (by rw [hl])
        refine ⟨255 :: 216 :: p.1, ?_⟩
        rw [← ho]
        unfold cleanJpeg
        rw [if_pos (by simp)]
        simp only [List.drop_succ_cons, List.drop_zero, hi, except_map_ok]
    · simp at h

/-! PNG handler -/

/-- The PNG signature. -/
def pngSig : Bytes := [137, 80, 78, 71, 13, 10, 26, 10]

/-- Chunk types dropped by `_clean_png`. -/
def pngDropTypes : List Bytes :=
  [cb ['t','E','X','t'], cb ['i','T','X','t'], cb ['z','T','X','t'], cb ['t','I','M','E']]

/-- Big-endian 32-bit value of a 4-byte chunk length field. -/
def beU32 (l : Bytes) : Nat :=
  l.getD 0 0 * 16777216 + l.getD 1 0 * 65536 + l.getD 2 0 * 256 + l.getD 3 0

/-- Chunk-walking loop of `_clean_png`: reads length, type, data and CRC of
each chunk (reads may come back short at end of file), drops text and time
chunks, copies everything else. -/
def pngLoop (s : Bytes) : Bytes × Bool :=
  if s.length < 4 then ([], false)
  else
    let lenB := s.take 4
    let length := beU32 lenB
    let r := s.drop 4
    let ctype := r.take 4
    let data := (r.drop 4).take length
    let crc := ((r.drop 4).drop length).take 4
    let rem := ((r.drop 4).drop length).drop 4
    if ctype ∈ pngDropTypes then
      let p := pngLoop rem
      (p.1, true)
    else
      let p := pngLoop rem
      (lenB ++ ctype ++ data ++ crc ++ p.1, p.2)
  termination_by s.length
  decreasing_by
  all_goals simp only [List.length_drop]
  all_goals omega

/-- Transliteration of `_clean_png`: signature check then the chunk walk. -/
def cleanPng (s : Bytes) : Bytes × Bool :=
  if s.take 8 = pngSig then
    let p := pngLoop (s.drop 8)
    (pngSig ++ p.1, p.2)
  else ([], false)

theorem pngChunk_reparse (r p1 : Bytes) (length : Nat)
    (hp1 : ((r.drop 4).drop length).drop 4 = [] → p1 = []) :
    (r.take 4 ++ ((r.drop 4).take length ++ (((r.drop 4).drop length).take 4 ++ p1))).take 4
        = r.take 4 ∧
    ((r.take 4 ++ ((r.drop 4).take length ++ (((r.drop 4).drop length).take 4 ++ p1))).drop 4).take length
        = (r.drop 4).take length ∧
    (((r.take 4 ++ ((r.drop 4).take length ++ (((r.drop 4).drop length).take 4 ++ p1))).drop 4).drop length).take 4
        = ((r.drop 4).drop length).take 4 ∧
    (((r.take 4 ++ ((r.drop 4).take length ++ (((r.drop 4).drop length).take 4 ++ p1))).drop 4).drop length).drop 4
        = p1 := by
  by_cases hA : 4 ≤ r.length
  · have hct : (r.take 4).length = 4 := by simp [List.length_take]; omega
    have e1 : (r.take 4 ++ ((r.drop 4).take length ++ (((r.drop 4).drop length).take 4 ++ p1))).take 4
        = r.take 4 := by
      have h2 := List.take_left (r.take 4) ((r.drop 4).take length ++ (((r.drop 4).drop length).take 4 ++ p1))
      rwa [hct] at h2
    have e1d : (r.take 4 ++ ((r.drop 4).take length ++ (((r.drop 4).drop length).take 4 ++ p1))).drop 4
        = (r.drop 4).take length ++ (((r.drop 4).drop length).take 4 ++ p1) := by
      have h2 := List.drop_left (r.take 4) ((r.drop 4).take length ++ (((r.drop 4).drop length).take 4 ++ p1))
      rwa [hct] at h2
    refine ⟨e1, ?_⟩
    rw [e1d]
    by_cases hB : length ≤ (r.drop 4).length
    · have hdl : ((r.drop 4).take length).length = length := by
        simp only [List.length_take, List.length_drop] at hB ⊢; omega
      have e2 : ((r.drop 4).take length ++ (((r.drop 4).drop length).take 4 ++ p1)).take length
          = (r.drop 4).take length := by
        have h2 := List.take_left ((r.drop 4).take length) (((r.drop 4).drop length).take 4 ++ p1)
        rwa [hdl] at h2
      have e2d : ((r.drop 4).take length ++ (((r.drop 4).drop length).take 4 ++ p1)).drop length
          = ((r.drop 4).drop length).take 4 ++ p1 := by
        have h2 := List.drop_left ((r.drop 4).take length) (((r.drop 4).drop length).take 4 ++ p1)
        rwa [hdl] at h2
      refine ⟨e2, ?_⟩
      rw [e2d]
      by_cases hC : 4 ≤ ((r.drop 4).drop length).length
      · have hcl : (((r.drop 4).drop length).take 4).length = 4 := by
          simp only [List.length_take, List.length_drop] at hC ⊢; omega
        constructor
        · have h2 := List.take_left (((r.drop 4).drop length).take 4) p1
          rwa [hcl] at h2
        · have h2 := List.drop_left (((r.drop 4).drop length).take 4) p1
          rwa [hcl] at h2
      · push_neg at hC
        have hrem : ((r.drop 4).drop length).drop 4 = [] :=
          List.drop_eq_nil_of_le (le_of_lt hC)
        have hp := hp1 hrem
        subst hp
        have hcw : ((r.drop 4).drop length).take 4 = (r.drop 4).drop length :=
          List.take_of_length_le (le_of_lt hC)
        constructor
        · rw [List.append_nil]
          simp [List.take_take]
        · rw [List.append_nil]
          exact List.drop_eq_nil_of_le (by simp [List.length_take])
    · push_neg at hB
      have hdl2 : (r.drop 4).drop length = [] := List.drop_eq_nil_of_le (le_of_lt hB)
      have hdw : (r.drop 4).take length = r.drop 4 := List.take_of_length_le (le_of_lt hB)
      have hp := hp1 (by rw [hdl2]; rfl)
      subst hp
      rw [hdl2]
      simp only [List.take_nil, List.append_nil]
      refine ⟨?_, ?_, ?_⟩
      · rw [hdw]
        exact List.take_of_length_le (by omega)
      · rw [hdw]
        have : (r.drop 4).drop length = [] := hdl2
        rw [this]
        simp
      · rw [hdw, hdl2]
        simp
  · push_neg at hA
    have hr4 : r.drop 4 = [] := List.drop_eq_nil_of_le (le_of_lt hA)
    have hrw : r.take 4 = r := List.take_of_length_le (le_of_lt hA)
    have hp := hp1 (by rw [hr4]; simp)
    subst hp
    rw [hr4]
    simp only [List.take_nil, List.drop_nil, List.append_nil]
    refine ⟨?_, ?_, ?_, ?_⟩
    · rw [hrw]; exact List.take_of_length_le (by omega)
    · rw [hrw]
      have : r.drop 4 = [] := hr4
      rw [this]; simp
    · rw [hrw, hr4]; simp
    · rw [hrw, hr4]; simp

theorem pngLoop_idem (s : Bytes) :
    pngLoop (pngLoop s).1 = ((pngLoop s).1, false) := by
  have H : ∀ (n : Nat) (s : Bytes), s.length ≤ n →
      pngLoop (pngLoop s).1 = ((pngLoop s).1, false) := by
    intro n
    induction n with
    | zero =>
      intro s hle
      have : s = [] := List.eq_nil_of_length_eq_zero (Nat.le_zero.mp hle)
      subst this
      simp [pngLoop]
    | succ n ih =>
      intro s hle
      by_cases hlt : s.length < 4
      · have hs : pngLoop s = ([], false) := by
          rw [pngLoop, if_pos hlt]
        rw [hs]
        simp [pngLoop]
      · have hs : pngLoop s =
            if (s.drop 4).take 4 ∈ pngDropTypes then
              ((pngLoop ((((s.drop 4).drop 4).drop (beU32 (s.take 4))).drop 4)).1, true)
            else
              (s.take 4 ++ (s.drop 4).take 4 ++
                 ((s.drop 4).drop 4).take (beU32 (s.take 4)) ++
                 (((s.drop 4).drop 4).drop (beU32 (s.take 4))).take 4 ++
                 (pngLoop ((((s.drop 4).drop 4).drop (beU32 (s.take 4))).drop 4)).1,
               (pngLoop ((((s.drop 4).drop 4).drop (beU32 (s.take 4))).drop 4)).2) := by
          rw [pngLoop, if_neg hlt]
        have hremle : ((((s.drop 4).drop 4).drop (beU32 (s.take 4))).drop 4).length ≤ n := by
          simp only [List.length_drop]
          omega
        by_cases hdrop : (s.drop 4).take 4 ∈ pngDropTypes
        · rw [hs, if_pos hdrop]
          exact ih _ hremle
        · rw [hs, if_neg hdrop]
          set B := s.take 4 with hB
          set L := beU32 B with hL
          set C := (s.drop 4).take 4 with hC
          set D := ((s.drop 4).drop 4).take L with hD
          set R := (((s.drop 4).drop 4).drop L).take 4 with hR
          set rem := (((s.drop 4).drop 4).drop L).drop 4 with hrem
          set P := (pngLoop rem).1 with hP
          have hp1 : rem = [] → P = [] := by
            intro h
            rw [hP, h]
            simp [pngLoop]
          have hrp := pngChunk_reparse (s.drop 4) P L hp1
          obtain ⟨e1, e2, e3, e4⟩ := hrp
          rw [← hC, ← hD, ← hR] at e1 e2 e3 e4
          have hBlen : B.length = 4 := by
            rw [hB]; simp only [List.length_take]; omega
          have hassoc : B ++ C ++ D ++ R ++ P = B ++ (C ++ (D ++ (R ++ P))) := by
            simp [List.append_assoc]
          dsimp only
          rw [hassoc]
          have hout : ¬((B ++ (C ++ (D ++ (R ++ P)))).length < 4) := by
            simp only [List.length_append]
            omega
          rw [pngLoop, if_neg hout]
          have ht4 : (B ++ (C ++ (D ++ (R ++ P)))).take 4 = B := by
            have h2 := List.take_left B (C ++ (D ++ (R ++ P)))
            rwa [hBlen] at h2
          have hd4 : (B ++ (C ++ (D ++ (R ++ P)))).drop 4 = C ++ (D ++ (R ++ P)) := by
            have h2 := List.drop_left B (C ++ (D ++ (R ++ P)))
            rwa [hBlen] at h2
          dsimp only
          rw [ht4, hd4, ← hL]
          rw [e1, e2, e3, e4]
          rw [if_neg hdrop]
          have hIH : pngLoop P = (P, false) := ih rem hremle
          rw [hIH]
          dsimp only
          rw [hassoc]
  exact H s.length s le_rfl

theorem cleanPng_second (s : Bytes) :
    (cleanPng (if (cleanPng s).2 then (cleanPng s).1 else s)).2 = false := by
  by_cases hc : (cleanPng s).2
  · rw [if_pos hc]
    unfold cleanPng at hc ⊢
    split_ifs at hc with hsig
    · dsimp only at hc ⊢
      rw [if_pos hsig]
      dsimp only
      have h8 : (pngSig : Bytes).length = 8 := by decide
      have ht : ((pngSig : Bytes) ++ (pngLoop (s.drop 8)).1).take 8 = pngSig := by
        have h2 := List.take_left (pngSig : Bytes) (pngLoop (s.drop 8)).1
        rwa [h8] at h2
      have hd : ((pngSig : Bytes) ++ (pngLoop (s.drop 8)).1).drop 8 = (pngLoop (s.drop 8)).1 := by
        have h2 := List.drop_left (pngSig : Bytes) (pngLoop (s.drop 8)).1
        rwa [h8] at h2
      rw [if_pos ht]
      dsimp only
      rw [hd, pngLoop_idem (s.drop 8)]
  · rw [if_neg hc]
    simpa using hc

/-! GIF handler -/

/-- Transliteration of `_skip_sub_blocks`: consumes `len | bytes(len)` blocks
up to and including a zero-length terminator (or end of file) and returns the
remaining bytes. -/
def subBlocksSkip : Bytes → Bytes
  | [] => []
  | sz :: rest =>
    if sz = 0 then rest else subBlocksSkip (rest.drop sz)
  termination_by s => s.length
  decreasing_by
  simp only [List.length_cons, List.length_drop]
  omega

/-- Transliteration of `_copy_sub_blocks`: copies the blocks to the output
and returns the copied bytes and the remaining bytes. -/
def subBlocksCopy : Bytes → Bytes × Bytes
  | [] => ([], [])
  | sz :: rest =>
    if sz = 0 then ([0], rest)
    else
      let p := subBlocksCopy (rest.drop sz)
      (sz :: (rest.take sz ++ p.1), p.2)
  termination_by s => s.length
  decreasing_by
  simp only [List.length_cons, List.length_drop]
  omega

theorem subBlocksSkip_length_le (s : Bytes) : (subBlocksSkip s).length ≤ s.length := by
  have H : ∀ (n : Nat) (s : Bytes), s.length ≤ n →
      (subBlocksSkip s).length ≤ s.length := by
    intro n
    induction n with
    | zero =>
      intro s h
      have : s = [] := List.eq_nil_of_length_eq_zero (Nat.le_zero.mp h)
      subst this
      simp [subBlocksSkip]
    | succ n ih =>
      intro s h
      match s with
      | [] => simp [subBlocksSkip]
      | sz :: rest =>
        rw [subBlocksSkip]
        split_ifs with h0
        · simp
        · refine le_trans (ih _ ?_) ?_
          · simp only [List.length_drop]
            simp only [List.length_cons] at h
            omega
          · simp only [List.length_drop, List.length_cons]
            omega
  exact H s.length s le_rfl

theorem subBlocksCopy_snd_length_le (s : Bytes) :
    (subBlocksCopy s).2.length ≤ s.length := by
  have H : ∀ (n : Nat) (s : Bytes), s.length ≤ n →
      (subBlocksCopy s).2.length ≤ s.length := by
    intro n
    induction n with
    | zero =>
      intro s h
      have : s = [] := List.eq_nil_of_length_eq_zero (Nat.le_zero.mp h)
      subst this
      simp [subBlocksCopy]
    | succ n ih =>
      intro s h
      match s with
      | [] => simp [subBlocksCopy]
      | sz :: rest =>
        rw [subBlocksCopy]
        split_ifs with h0
        · simp
        · dsimp only
          refine le_trans (ih _ ?_) ?_
          · simp only [List.length_drop]
            simp only [List.length_cons] at h
            omega
          · simp only [List.length_drop, List.length_cons]
            omega
  exact H s.length s le_rfl

/-- GIF87a magic. -/
def gif87 : Bytes := cb ['G','I','F','8','7','a']

/-- GIF89a magic. -/
def gif89 : Bytes := cb ['G','I','F','8','9','a']

/-- Block-walking loop of `_clean_gif`: trailer is copied and stops the walk,
image descriptors and non-comment extensions are copied, comment extensions
(label 0xFE) are dropped, any other introducer stops the walk without being
copied.  `.error` models the `IndexError` raised when the file ends right
after an image descriptor's 9 bytes (`packed = f.read(1); packed[0]`). -/
def gifLoop : Bytes → Except Unit (Bytes × Bool)
  | [] => .ok ([], false)
  | b :: rest =>
    if b = 59 then .ok ([b], false)
    else if b = 44 then
      if rest.drop 9 = [] then .error ()
      else
        let p := (rest.drop 9).getD 0 0
        let r10 := (rest.drop 9).drop 1
        let lctSize := if p &&& 128 ≠ 0 then 3 * 2 ^ ((p &&& 7) + 1) else 0
        let r11 := r10.drop lctSize
        let bl := subBlocksCopy (r11.drop 1)
        (gifLoop bl.2).map (fun q =>
          (b :: (rest.take 9 ++ p :: (r10.take lctSize ++ (r11.take 1 ++ (bl.1 ++ q.1)))),
           q.2))
    else if b = 33 then
      if rest = [] then .ok ([], false)
      else
        let lab := rest.getD 0 0
        let r2 := rest.drop 1
        if lab = 254 then
          (gifLoop (subBlocksSkip r2)).map (fun q => (q.1, true))
        else
          let bl := subBlocksCopy r2
          (gifLoop bl.2).map (fun q => (b :: (lab :: (bl.1 ++ q.1)), q.2))
    else .ok ([], false)
  termination_by s => s.length
  decreasing_by
  · refine lt_of_le_of_lt (subBlocksCopy_snd_length_le _) ?_
    simp only [List.length_drop, List.length_cons]
    omega
  · refine lt_of_le_of_lt (subBlocksSkip_length_le _) ?_
    simp only [List.length_drop, List.length_cons]
    omega
  · refine lt_of_le_of_lt (subBlocksCopy_snd_length_le _) ?_
    simp only [List.length_drop, List.length_cons]
    omega

/-- Packed field of the logical screen descriptor (`lsd[4]`). -/
def gifPacked (s : Bytes) : Nat := ((s.drop 6).take 7).getD 4 0

/-- Size of the global color table: `3 * 2^((packed & 7) + 1)` when the
GCT flag (bit 7) is set, otherwise 0. -/
def gifGctSize (s : Bytes) : Nat :=
  if gifPacked s &&& 128 ≠ 0 then 3 * 2 ^ ((gifPacked s &&& 7) + 1) else 0

/-- Transliteration of `_clean_gif`: header and logical screen descriptor
checks, optional global color table, then the block walk. -/
def cleanGif (s : Bytes) : Except Unit (Bytes × Bool) :=
  if startsWithB gif87 s || startsWithB gif89 s then
    if ((s.drop 6).take 7).length < 7 then .ok ([], false)
    else
      (gifLoop (((s.drop 6).drop 7).drop (gifGctSize s))).map (fun q =>
        (s.take 6 ++ ((s.drop 6).take 7 ++
          (((s.drop 6).drop 7).take (gifGctSize s) ++ q.1)), q.2))
  else .ok ([], false)

theorem subBlocksCopy_nil : subBlocksCopy ([] : Bytes) = ([], []) := by
  rw [subBlocksCopy.eq_def]

theorem subBlocksCopy_reparse (r : Bytes) :
    (∀ t, subBlocksCopy ((subBlocksCopy r).1 ++ t) = ((subBlocksCopy r).1, t)) ∨
    ((subBlocksCopy r).2 = [] ∧
      subBlocksCopy ((subBlocksCopy r).1) = ((subBlocksCopy r).1, [])) := by
  have H : ∀ (n : Nat) (r : Bytes), r.length ≤ n →
      (∀ t, subBlocksCopy ((subBlocksCopy r).1 ++ t) = ((subBlocksCopy r).1, t)) ∨
      ((subBlocksCopy r).2 = [] ∧
        subBlocksCopy ((subBlocksCopy r).1) = ((subBlocksCopy r).1, [])) := by
    intro n
    induction n with
    | zero =>
      intro r hle
      have : r = [] := List.eq_nil_of_length_eq_zero (Nat.le_zero.mp hle)
      subst this
      right
      rw [subBlocksCopy_nil]
      exact ⟨rfl, by rw [subBlocksCopy_nil]⟩
    | succ n ih =>
      intro r hle
      match r with
      | [] =>
        right
        rw [subBlocksCopy_nil]
        exact ⟨rfl, by rw [subBlocksCopy_nil]⟩
      | sz :: rest =>
        by_cases h0 : sz = 0
        · subst h0
          left
          intro t
          rw [subBlocksCopy, if_pos rfl]
          dsimp only
          rw [subBlocksCopy.eq_def]
          simp
        · have hstep : subBlocksCopy (sz :: rest) =
              (sz :: (rest.take sz ++ (subBlocksCopy (rest.drop sz)).1),
               (subBlocksCopy (rest.drop sz)).2) := by
            rw [subBlocksCopy, if_neg h0]
          by_cases hfull : sz ≤ rest.length
          · have htl : (rest.take sz).length = sz := by
              simp only [List.length_take]; omega
            have hdle : (rest.drop sz).length ≤ n := by
              simp only [List.length_drop]
              simp only [List.length_cons] at hle
              omega
            rcases ih (rest.drop sz) hdle with hL | hR
            · left
              intro t
              rw [hstep]
              dsimp only
              rw [subBlocksCopy.eq_def]
              dsimp only
              simp only [List.cons_append]
              rw [if_neg h0]
              have e1 : ((rest.take sz ++ (subBlocksCopy (rest.drop sz)).1) ++ t).take sz
                  = rest.take sz := by
                rw [List.append_assoc]
                have h2 := List.take_left (rest.take sz)
                  ((subBlocksCopy (rest.drop sz)).1 ++ t)
                rwa [htl] at h2
              have e2 : ((rest.take sz ++ (subBlocksCopy (rest.drop sz)).1) ++ t).drop sz
                  = (subBlocksCopy (rest.drop sz)).1 ++ t := by
                rw [List.append_assoc]
                have h2 := List.drop_left (rest.take sz)
                  ((subBlocksCopy (rest.drop sz)).1 ++ t)
                rwa [htl] at h2
              rw [e1, e2, hL t]
            · right
              rw [hstep]
              refine ⟨hR.1, ?_⟩
              dsimp only
              rw [subBlocksCopy.eq_def]
              dsimp only
              rw [if_neg h0]
              have e1 : (rest.take sz ++ (subBlocksCopy (rest.drop sz)).1).take sz
                  = rest.take sz := by
                have h2 := List.take_left (rest.take sz) (subBlocksCopy (rest.drop sz)).1
                rwa [htl] at h2
              have e2 : (rest.take sz ++ (subBlocksCopy (rest.drop sz)).1).drop sz
                  = (subBlocksCopy (rest.drop sz)).1 := by
                have h2 := List.drop_left (rest.take sz) (subBlocksCopy (rest.drop sz)).1
                rwa [htl] at h2
              rw [e1, e2, hR.2]
          · push_neg at hfull
            have hdw : rest.take sz = rest := List.take_of_length_le (le_of_lt hfull)
            have hdn : rest.drop sz = [] := List.drop_eq_nil_of_le (le_of_lt hfull)
            right
            rw [hstep, hdn, subBlocksCopy_nil]
            dsimp only
            constructor
            · rfl
            · rw [List.append_nil, hdw]
              rw [hstep, hdn, subBlocksCopy_nil]
              dsimp only
              rw [List.append_nil, hdw]
  exact H r.length r le_rfl

theorem gifLoop_nil : gifLoop ([] : Bytes) = .ok ([], false) := by
  rw [gifLoop.eq_def]

theorem gifLoop_idem (r o : Bytes) (c : Bool) (h : gifLoop r = .ok (o, c)) :
    gifLoop o = .ok (o, false) := by
  have H : ∀ (n : Nat) (r : Bytes), r.length ≤ n → ∀ (o : Bytes) (c : Bool),
      gifLoop r = .ok (o, c) → gifLoop o = .ok (o, false) := by
    intro n
    induction n with
    | zero =>
      intro r hle o c h
      have : r = [] := List.eq_nil_of_length_eq_zero (Nat.le_zero.mp hle)
      subst this
      rw [gifLoop_nil] at h
      simp only [Except.ok.injEq, Prod.mk.injEq] at h
      rw [← h.1, gifLoop_nil]
    | succ n ih =>
      intro r hle o c h
      match r, hle with
      | [], hle =>
        rw [gifLoop_nil] at h
        simp only [Except.ok.injEq, Prod.mk.injEq] at h
        rw [← h.1, gifLoop_nil]
      | b :: rest, hle =>
        have hrestle : rest.length ≤ n := by
          simp only [List.length_cons] at hle; omega
        rw [gifLoop.eq_def] at h
        try dsimp only at h
        by_cases h59 : b = 59
        · rw [if_pos h59] at h
          simp only [Except.ok.injEq, Prod.mk.injEq] at h
          rw [← h.1, gifLoop.eq_def]
          try dsimp only
          rw [if_pos h59]
        · rw [if_neg h59] at h
          by_cases h44 : b = 44
          · rw [if_pos h44] at h
            by_cases hr9 : rest.drop 9 = []
            · rw [if_pos hr9] at h
              simp at h
            · rw [if_neg hr9] at h
              try dsimp only at h
              cases hgl : gifLoop (subBlocksCopy ((((rest.drop 9).drop 1).drop
                  (if (rest.drop 9).getD 0 0 &&& 128 ≠ 0
                   then 3 * 2 ^ (((rest.drop 9).getD 0 0 &&& 7) + 1) else 0)).drop 1)).2 with
              | error e => rw [hgl] at h; simp at h
              | ok q =>
                rw [hgl] at h
                simp only [except_map_ok, Except.ok.injEq, Prod.mk.injEq] at h
                obtain ⟨ho, hc⟩ := h
                set p := (rest.drop 9).getD 0 0 with hp
                set lct := (if p &&& 128 ≠ 0 then 3 * 2 ^ ((p &&& 7) + 1) else 0 : Nat)
                  with hlct
                set r10 := (rest.drop 9).drop 1 with hr10
                set r11 := r10.drop lct with hr11
                set bl := subBlocksCopy (r11.drop 1) with hbl
                have hble : bl.2.length ≤ n := by
                  refine le_trans (subBlocksCopy_snd_length_le _) ?_
                  rw [hr11, hr10]
                  simp only [List.length_drop]
                  omega
                have hIH := ih bl.2 hble q.1 q.2 (by rw [hgl])
                have hq1 : bl.2 = [] → q.1 = [] := by
                  intro hnil
                  rw [hnil, gifLoop_nil] at hgl
                  injection hgl with hgl2
                  rw [← hgl2]
                have hA9 : (rest.take 9).length = 9 := by
                  have : rest.drop 9 ≠ [] := hr9
                  have h2 : 0 < (rest.drop 9).length := List.length_pos.mpr this
                  simp only [List.length_drop] at h2
                  simp only [List.length_take]
                  omega
                rw [← ho]
                rw [gifLoop.eq_def]
                try dsimp only
                rw [if_neg h59, if_pos h44]
                have hd9 : ((rest.take 9 ++ p :: (r10.take lct ++ (r11.take 1 ++ (bl.1 ++ q.1))))).drop 9
                    = p :: (r10.take lct ++ (r11.take 1 ++ (bl.1 ++ q.1))) := by
                  have h2 := List.drop_left (rest.take 9)
                    (p :: (r10.take lct ++ (r11.take 1 ++ (bl.1 ++ q.1))))
                  rwa [hA9] at h2
                clear hp
                have ht9 : ∀ T : Bytes, ((rest.take 9 ++ p :: T)).take 9 = rest.take 9 := by
                  intro T
                  have h2 := List.take_left (rest.take 9) (p :: T)
                  rwa [hA9] at h2
                rw [hd9]
                rw [if_neg (by simp : ¬(p :: (r10.take lct ++ (r11.take 1 ++ (bl.1 ++ q.1))) = []))]
                try dsimp only
                simp only [List.getD_cons_zero, List.drop_succ_cons, List.drop_zero]
                rw [← hlct]
                by_cases hC : lct ≤ r10.length
                · have hCl : (r10.take lct).length = lct := by
                    simp only [List.length_take]; omega
                  have e1 : (r10.take lct ++ (r11.take 1 ++ (bl.1 ++ q.1))).take lct
                      = r10.take lct := by
                    have h2 := List.take_left (r10.take lct) (r11.take 1 ++ (bl.1 ++ q.1))
                    rwa [hCl] at h2
                  have e2 : (r10.take lct ++ (r11.take 1 ++ (bl.1 ++ q.1))).drop lct
                      = r11.take 1 ++ (bl.1 ++ q.1) := by
                    have h2 := List.drop_left (r10.take lct) (r11.take 1 ++ (bl.1 ++ q.1))
                    rwa [hCl] at h2
                  rw [e1, e2]
                  by_cases hM : 1 ≤ r11.length
                  · have hMl : (r11.take 1).length = 1 := by
                      simp only [List.length_take]; omega
                    have e3 : (r11.take 1 ++ (bl.1 ++ q.1)).take 1 = r11.take 1 := by
                      have h2 := List.take_left (r11.take 1) (bl.1 ++ q.1)
                      rwa [hMl] at h2
                    have e4 : (r11.take 1 ++ (bl.1 ++ q.1)).drop 1 = bl.1 ++ q.1 := by
                      have h2 := List.drop_left (r11.take 1) (bl.1 ++ q.1)
                      rwa [hMl] at h2
                    rw [e3, e4]
                    rcases subBlocksCopy_reparse (r11.drop 1) with hL | hR
                    · rw [← hbl] at hL
                      rw [hL q.1, hIH]
                      simp [ht9]
                    · rw [← hbl] at hR
                      have hq := hq1 hR.1
                      rw [hq, List.append_nil, hR.2, gifLoop_nil]
                      simp [hq, ht9]
                  · push_neg at hM
                    have hr11nil : r11 = [] :=
                      List.eq_nil_of_length_eq_zero (by omega)
                    have hblv : bl = ([], []) := by
                      rw [hbl, hr11nil]
                      simp only [List.drop_nil]
                      exact subBlocksCopy_nil
                    have hq := hq1 (by rw [hblv])
                    rw [hr11nil, hblv, hq]
                    simp only [List.take_nil, List.drop_nil, List.nil_append,
                      List.append_nil, subBlocksCopy_nil, gifLoop_nil]
                    simp [ht9]
                · push_neg at hC
                  have hCw : r10.take lct = r10 := List.take_of_length_le (le_of_lt hC)
                  have hr11nil : r11 = [] := by
                    rw [hr11]
                    exact List.drop_eq_nil_of_le (le_of_lt hC)
                  have hblv : bl = ([], []) := by
                    rw [hbl, hr11nil]
                    simp only [List.drop_nil]
                    exact subBlocksCopy_nil
                  have hq := hq1 (by rw [hblv])
                  rw [hr11nil, hblv, hq, hCw]
                  simp only [List.take_nil, List.drop_nil, List.nil_append,
                    List.append_nil]
                  have e1 : r10.take lct = r10 := hCw
                  rw [e1]
                  have e2 : r10.drop lct = [] := by
                    rw [← hr11]  -- r11 = r10.drop lct
                    exact hr11nil
                  rw [e2]
                  simp only [List.take_nil, List.drop_nil, subBlocksCopy_nil,
                    gifLoop_nil]
                  simp [ht9]
          · rw [if_neg h44] at h
            by_cases h33 : b = 33
            · rw [if_pos h33] at h
              by_cases hrnil : rest = []
              · rw [if_pos hrnil] at h
                simp only [Except.ok.injEq, Prod.mk.injEq] at h
                rw [← h.1, gifLoop_nil]
              · rw [if_neg hrnil] at h
                try dsimp only at h
                by_cases hfe : rest.getD 0 0 = 254
                · rw [if_pos hfe] at h
                  cases hgl : gifLoop (subBlocksSkip (rest.drop 1)) with
                  | error e => rw [hgl] at h; simp at h
                  | ok q =>
                    rw [hgl] at h
                    simp only [except_map_ok, Except.ok.injEq, Prod.mk.injEq] at h
                    obtain ⟨ho, hc⟩ := h
                    have hle2 : (subBlocksSkip (rest.drop 1)).length ≤ n := by
                      refine le_trans (subBlocksSkip_length_le _) ?_
                      simp only [List.length_drop]
                      omega
                    have hIH := ih _ hle2 q.1 q.2 (by rw [hgl])
                    rw [← ho]
                    exact hIH
                · rw [if_neg hfe] at h
                  try dsimp only at h
                  cases hgl : gifLoop (subBlocksCopy (rest.drop 1)).2 with
                  | error e => rw [hgl] at h; simp at h
                  | ok q =>
                    rw [hgl] at h
                    simp only [except_map_ok, Except.ok.injEq, Prod.mk.injEq] at h
                    obtain ⟨ho, hc⟩ := h
                    have hble : (subBlocksCopy (rest.drop 1)).2.length ≤ n := by
                      refine le_trans (subBlocksCopy_snd_length_le _) ?_
                      simp only [List.length_drop]
                      omega
                    have hIH := ih _ hble q.1 q.2 (by rw [hgl])
                    have hq1 : (subBlocksCopy (rest.drop 1)).2 = [] → q.1 = [] := by
                      intro hnil
                      rw [hnil, gifLoop_nil] at hgl
                      injection hgl with hgl2
                      rw [← hgl2]
                    rw [← ho]
                    rw [gifLoop.eq_def]
                    try dsimp only
                    rw [if_neg h59, if_neg h44, if_pos h33]
                    rw [if_neg (by simp :
                      ¬(rest.getD 0 0 :: ((subBlocksCopy (rest.drop 1)).1 ++ q.1) = []))]
                    try dsimp only
                    simp only [List.getD_cons_zero, List.drop_succ_cons, List.drop_zero]
                    rw [if_neg hfe]
                    rcases subBlocksCopy_reparse (rest.drop 1) with hL | hR
                    · rw [hL q.1, hIH]
                      simp
                    · have hq := hq1 hR.1
                      rw [hq, List.append_nil, hR.2, gifLoop_nil]
                      simp [hq]
            · rw [if_neg h33] at h
              simp only [Except.ok.injEq, Prod.mk.injEq] at h
              rw [← h.1, gifLoop_nil]
  exact H r.length r le_rfl o c h

theorem startsWithB_take (p s : Bytes) (h : startsWithB p s = true) :
    s.take p.length = p := by
  induction p generalizing s with
  | nil => simp
  | cons a ps ih =>
    cases s with
    | nil => simp [startsWithB] at h
    | cons b ss =>
      simp only [startsWithB, Bool.and_eq_true, decide_eq_true_eq] at h
      simp [List.take_succ_cons, h.1.symm, ih ss h.2]

theorem startsWithB_self_append (p t : Bytes) : startsWithB p (p ++ t) = true := by
  induction p with
  | nil => simp [startsWithB]
  | cons a ps ih => simp [startsWithB, ih]

theorem cleanGif_second (s out : Bytes) (c : Bool) (h : cleanGif s = .ok (out, c)) :
    ∃ o2, cleanGif (if c then out else s) = .ok (o2, false) := by
  cases c with
  | false => exact ⟨out, by simpa using h⟩
  | true =>
    simp only [if_pos]
    unfold cleanGif at h
    split_ifs at h with hmag hlsd
    · simp at h
    · cases hgl : gifLoop (((s.drop 6).drop 7).drop (gifGctSize s)) with
      | error e => rw [hgl] at h; simp at h
      | ok q =>
        rw [hgl] at h
        simp only [except_map_ok, Except.ok.injEq, Prod.mk.injEq] at h
        obtain ⟨ho, hc⟩ := h
        have hIH := gifLoop_idem _ q.1 q.2 hgl
        have hlsd7 : ((s.drop 6).take 7).length = 7 := by
          push_neg at hlsd
          simp only [List.length_take] at hlsd ⊢
          omega
        have hslen : 6 ≤ s.length := by
          rcases Bool.or_eq_true _ _ |>.mp hmag with hm | hm
          · have := startsWithB_length_le _ _ hm
            simpa [gif87, cb] using this
          · have := startsWithB_length_le _ _ hm
            simpa [gif89, cb] using this
        have hs6 : (s.take 6).length = 6 := by
          simp only [List.length_take]; omega
        by_cases hfull : gifGctSize s ≤ ((s.drop 6).drop 7).length
        · have hgctl : (((s.drop 6).drop 7).take (gifGctSize s)).length = gifGctSize s := by
            simp only [List.length_take]; omega
          refine ⟨out, ?_⟩
          rw [← ho]
          unfold cleanGif
          set lsd := (s.drop 6).take 7 with hlsdv
          set gct := ((s.drop 6).drop 7).take (gifGctSize s) with hgctv
          have hmag2 : (startsWithB gif87 (s.take 6 ++ (lsd ++ (gct ++ q.1)))
              || startsWithB gif89 (s.take 6 ++ (lsd ++ (gct ++ q.1)))) = true := by
            rcases Bool.or_eq_true _ _ |>.mp hmag with hm | hm
            · have ht : s.take 6 = gif87 := by
                have h2 := startsWithB_take _ _ hm
                simpa [gif87, cb] using h2
              rw [ht]
              simp [startsWithB_self_append]
            · have ht : s.take 6 = gif89 := by
                have h2 := startsWithB_take _ _ hm
                simpa [gif89, cb] using h2
              rw [ht]
              simp [startsWithB_self_append]
          rw [if_pos hmag2]
          have hd6 : (s.take 6 ++ (lsd ++ (gct ++ q.1))).drop 6 = lsd ++ (gct ++ q.1) := by
            have h2 := List.drop_left (s.take 6) (lsd ++ (gct ++ q.1))
            rwa [hs6] at h2
          have ht7 : (lsd ++ (gct ++ q.1)).take 7 = lsd := by
            have h2 := List.take_left lsd (gct ++ q.1)
            rwa [hlsd7] at h2
          have hd7 : (lsd ++ (gct ++ q.1)).drop 7 = gct ++ q.1 := by
            have h2 := List.drop_left lsd (gct ++ q.1)
            rwa [hlsd7] at h2
          have hpacked : gifPacked (s.take 6 ++ (lsd ++ (gct ++ q.1))) = gifPacked s := by
            unfold gifPacked
            rw [hd6, ht7]
          have hgsz : gifGctSize (s.take 6 ++ (lsd ++ (gct ++ q.1))) = gifGctSize s := by
            unfold gifGctSize
            rw [hpacked]
          rw [hd6, ht7, hd7, hgsz]
          rw [if_neg (by omega : ¬lsd.length < 7)]
          have htg : (gct ++ q.1).take (gifGctSize s) = gct := by
            have h2 := List.take_left gct q.1
            rwa [hgctl] at h2
          have hdg : (gct ++ q.1).drop (gifGctSize s) = q.1 := by
            have h2 := List.drop_left gct q.1
            rwa [hgctl] at h2
          have ht6 : (s.take 6 ++ (lsd ++ (gct ++ q.1))).take 6 = s.take 6 := by
            have h2 := List.take_left (s.take 6) (lsd ++ (gct ++ q.1))
            rwa [hs6] at h2
          rw [htg, hdg, hIH]
          simp [ht6]
        · push_neg at hfull
          have hrnil : ((s.drop 6).drop 7).drop (gifGctSize s) = [] :=
            List.drop_eq_nil_of_le (le_of_lt hfull)
          rw [hrnil, gifLoop_nil] at hgl
          injection hgl with hq
          rw [← hq] at hc
          simp at hc
    · simp at h

/-! OOXML handler, modelled at the level of ZIP parts -/

/-- An XML child element of the root, as `ElementTree.findall` sees it: a
qualified tag, attributes, and an opaque subtree (the rewriting code never
looks below the root's direct children). -/
structure XChild where
  tag : Bytes
  attrs : List (Bytes × Bytes)
  sub : Bytes
deriving DecidableEq

/-- A parsed XML document: root tag, root attributes, direct children. -/
structure XDoc where
  tag : Bytes
  attrs : List (Bytes × Bytes)
  children : List XChild
deriving DecidableEq

/-- Content of a ZIP part: raw bytes, or bytes that `ET.fromstring` parses
into the given document (the `except: pass` route of the source corresponds
to `raw`, which the transform leaves untouched). -/
inductive PContent where
  | raw (b : Bytes)
  | xml (d : XDoc)
deriving DecidableEq

/-- An OOXML archive: the `infolist` order of (part name, part content). -/
abbrev Archive := List (Bytes × PContent)

/-- Name of the content-types control file. -/
def ctName : Bytes := cb ['[','C','o','n','t','e','n','t','_','T','y','p','e','s',']','.','x','m','l']

/-- Name of the root relationships control file. -/
def relsName : Bytes := cb ['_','r','e','l','s','/','.','r','e','l','s']

/-- Path of `docProps/core.xml`. -/
def coreName : Bytes := cb ['d','o','c','P','r','o','p','s','/','c','o','r','e','.','x','m','l']

/-- Path of `docProps/app.xml`. -/
def appName : Bytes := cb ['d','o','c','P','r','o','p','s','/','a','p','p','.','x','m','l']

/-- Path of `docProps/custom.xml`. -/
def customName : Bytes := cb ['d','o','c','P','r','o','p','s','/','c','u','s','t','o','m','.','x','m','l']

/-- Prefix of the thumbnail parts. -/
def thumbPre : Bytes := cb ['d','o','c','P','r','o','p','s','/','t','h','u','m','b','n','a','i','l','.']

/-- The `docProps/` prefix. -/
def docPropsPre : Bytes := cb ['d','o','c','P','r','o','p','s','/']

/-- The `/docProps/` prefix used in `[Content_Types].xml` part names. -/
def slashDocProps : Bytes := cb ['/','d','o','c','P','r','o','p','s','/']

/-- Qualified tag of `Override` in the content-types namespace. -/
def ctOverrideTag : Bytes :=
  cb ['\x7b','h','t','t','p',':','/','/','s','c','h','e','m','a','s','.','o','p','e','n','x','m','l','f','o','r','m','a','t','s','.','o','r','g','/','p','a','c','k','a','g','e','/','2','0','0','6','/','c','o','n','t','e','n','t','-','t','y','p','e','s','\x7d','O','v','e','r','r','i','d','e']

/-- Qualified tag of `Relationship` in the relationships namespace. -/
def relRelationshipTag : Bytes :=
  cb ['\x7b','h','t','t','p',':','/','/','s','c','h','e','m','a','s','.','o','p','e','n','x','m','l','f','o','r','m','a','t','s','.','o','r','g','/','p','a','c','k','a','g','e','/','2','0','0','6','/','r','e','l','a','t','i','o','n','s','h','i','p','s','\x7d','R','e','l','a','t','i','o','n','s','h','i','p']

/-- Attribute key `PartName`. -/
def partNameKey : Bytes := cb ['P','a','r','t','N','a','m','e']

/-- Attribute key `Target`. -/
def targetKey : Bytes := cb ['T','a','r','g','e','t']

/-- Python `elem.attrib.get(key, '')`. -/
def attrGet (a : List (Bytes × Bytes)) (k : Bytes) : Bytes :=
  (((a.find? (fun kv => kv.1 == k)).map (fun kv => kv.2)).getD [])

/-- The removal test of `_clean_office_props`: the three property parts and
any `docProps/thumbnail.*`. -/
def removedName (n : Bytes) : Bool :=
  n == coreName || n == appName || n == customName || startsWithB thumbPre n

/-- Rewrite of `[Content_Types].xml`: drop every direct `Override` child
whose `PartName` begins with `/docProps/`; unparseable content is left
unchanged. -/
def ctTransform : PContent → PContent
  | .raw b => .raw b
  | .xml d => .xml { d with children := d.children.filter (fun ch =>
      !(ch.tag == ctOverrideTag &&
        startsWithB slashDocProps (attrGet ch.attrs partNameKey))) }

/-- Rewrite of `_rels/.rels`: drop every direct `Relationship` child whose
`Target` begins with `docProps/`. -/
def relsTransform : PContent → PContent
  | .raw b => .raw b
  | .xml d => .xml { d with children := d.children.filter (fun ch =>
      !(ch.tag == relRelationshipTag &&
        startsWithB docPropsPre (attrGet ch.attrs targetKey))) }

/-- Per-part rewrite applied by the copy loop. -/
def transformFor (n : Bytes) (c : PContent) : PContent :=
  if n = ctName then ctTransform c
  else if n = relsName then relsTransform c
  else c

/-- Python `ZipFile.read(name)`: the archive's name table keeps the last
entry for a duplicated name, so reading by name yields the last match. -/
def lookupLast (a : Archive) (n : Bytes) : PContent :=
  (((a.filter (fun e => e.1 == n)).getLast?).map (fun e => e.2)).getD (.raw [])

/-- Copy loop of `_clean_office_props` over `infolist`, reading each kept
entry via `zin.read(item.filename)` from the original archive: returns the
rewritten archive and the number of removed entries. -/
def officeCleanGo (orig : Archive) : Archive → Archive × Nat
  | [] => ([], 0)
  | e :: rest =>
    if removedName e.1 then
      let p := officeCleanGo orig rest
      (p.1, p.2 + 1)
    else
      let p := officeCleanGo orig rest
      ((e.1, transformFor e.1 (lookupLast orig e.1)) :: p.1, p.2)

/-- Transliteration of `_clean_office_props` at the part level. -/
def officeClean (a : Archive) : Archive × Nat := officeCleanGo a a

/-- Python list suffix test. -/
def endsWithB (p s : Bytes) : Bool := startsWithB p.reverse s.reverse

/-- Suffix `.rels`. -/
def relsSuf : Bytes := cb ['.','r','e','l','s']

/-- Infix `/_rels/`. -/
def midRels : Bytes := cb ['/','_','r','e','l','s','/']

/-- Prefix `_rels/`. -/
def relsPre : Bytes := cb ['_','r','e','l','s','/']

/-- The exclusion test of `_hash_office_content`: `docProps/` paths, `.rels`
files, anything inside a `_rels/` directory, and `[Content_Types].xml`. -/
def hashExcluded (n : Bytes) : Bool :=
  startsWithB docPropsPre n || endsWithB relsSuf n || containsB midRels n ||
  startsWithB relsPre n || n == ctName

/-- Bytes of a part as the hash reads them; the encoding of parsed XML only
matters up to injectivity since kept parts pass through unchanged. -/
def partBytes : PContent → Bytes
  | .raw b => b
  | .xml d =>
    d.tag ++ ((d.attrs.map (fun kv => kv.1 ++ kv.2)).foldr (· ++ ·) []) ++
    ((d.children.map (fun c =>
      c.tag ++ ((c.attrs.map (fun kv => kv.1 ++ kv.2)).foldr (· ++ ·) []) ++ c.sub)).foldr
        (· ++ ·) [])

/-- Lexicographic byte-string order used by Python's `list.sort`. -/
def lexLe : Bytes → Bytes → Bool
  | [], _ => true
  | _ :: _, [] => false
  | a :: as, b :: bs => if a < b then true else if a = b then lexLe as bs else false

/-- Insertion respecting `lexLe`. -/
def insertSorted (x : Bytes) : List Bytes → List Bytes
  | [] => [x]
  | y :: ys => if lexLe x y then x :: y :: ys else y :: insertSorted x ys

/-- Insertion sort by `lexLe` (the model of `names.sort()`). -/
def sortBytes : List Bytes → List Bytes
  | [] => []
  | x :: xs => insertSorted x (sortBytes xs)

/-- Byte stream fed to SHA-256 by `_hash_office_content`: kept names sorted,
then per name the UTF-8 name bytes followed by the part bytes read by name.
Equal streams give equal digests. -/
def officeHashStream (a : Archive) : Bytes :=
  (((sortBytes ((a.map (fun e => e.1)).filter (fun n => !hashExcluded n))).map
    (fun n => n ++ partBytes (lookupLast a n))).foldr (· ++ ·) [])

theorem transformFor_raw (n : Bytes) (b : Bytes) :
    transformFor n (.raw b) = .raw b := by
  unfold transformFor
  split_ifs <;> simp [ctTransform, relsTransform]

theorem officeCleanGo_names (orig b : Archive) :
    ((officeCleanGo orig b).1).map (fun e => e.1)
      = (b.map (fun e => e.1)).filter (fun n => !removedName n) := by
  induction b with
  | nil => simp [officeCleanGo]
  | cons e rest ih =>
    rw [officeCleanGo]
    by_cases hr : removedName e.1
    · rw [if_pos hr]
      simpa [hr] using ih
    · rw [if_neg hr]
      simp only [List.map_cons, List.filter_cons]
      simp [hr, ih]

theorem officeCleanGo_count (orig b : Archive) :
    (officeCleanGo orig b).2 = (b.filter (fun e => removedName e.1)).length := by
  induction b with
  | nil => simp [officeCleanGo]
  | cons e rest ih =>
    rw [officeCleanGo]
    by_cases hr : removedName e.1
    · rw [if_pos hr]
      simp [hr, ih]
    · rw [if_neg hr]
      simp [hr, ih]

theorem getLast_map_const {α β : Type} (l : List α) (c : β) (h : l ≠ []) :
    (l.map (fun _ => c)).getLast? = some c := by
  induction l with
  | nil => simp at h
  | cons x xs ih =>
    cases xs with
    | nil => simp
    | cons y ys =>
      rw [List.map_cons, List.map_cons, List.getLast?_cons_cons]
      have h2 := ih (by simp)
      simp only [List.map_cons] at h2
      exact h2

theorem officeCleanGo_filter_name (orig b : Archive) (n : Bytes)
    (hn : removedName n = false) :
    (officeCleanGo orig b).1.filter (fun e => e.1 == n)
      = (b.filter (fun e => e.1 == n)).map
          (fun _ => (n, transformFor n (lookupLast orig n))) := by
  induction b with
  | nil => simp [officeCleanGo]
  | cons e rest ih =>
    rw [officeCleanGo]
    by_cases hr : removedName e.1
    · rw [if_pos hr]
      have hne : (e.1 == n) = false := by
        by_cases he : e.1 = n
        · exfalso
          rw [he] at hr
          rw [hr] at hn
          simp at hn
        · exact beq_eq_false_iff_ne.mpr he
      simp only [List.filter_cons, hne]
      exact ih
    · rw [if_neg hr]
      dsimp only
      by_cases heq : e.1 = n
      · subst heq
        simp only [List.filter_cons, beq_self_eq_true]
        simp [ih]
      · have hne : (e.1 == n) = false := beq_eq_false_iff_ne.mpr heq
        simp only [List.filter_cons, hne]
        exact ih

theorem lookupLast_officeClean (a : Archive) (n : Bytes)
    (hn : removedName n = false) :
    lookupLast (officeClean a).1 n = transformFor n (lookupLast a n) := by
  unfold lookupLast officeClean
  rw [officeCleanGo_filter_name a a n hn]
  cases hfa : a.filter (fun e => e.1 == n) with
  | nil =>
    simp only [List.map_nil, List.getLast?_nil]
    exact (transformFor_raw n []).symm
  | cons x xs =>
    rw [getLast_map_const _ _ (by simp)]
    show transformFor n (lookupLast a n) = _
    unfold lookupLast
    rw [hfa]

theorem startsWithB_trans (p q s : Bytes) (h1 : startsWithB p q = true)
    (h2 : startsWithB q s = true) : startsWithB p s = true := by
  induction p generalizing q s with
  | nil => simp [startsWithB]
  | cons a ps ih =>
    cases q with
    | nil => simp [startsWithB] at h1
    | cons b qs =>
      cases s with
      | nil => simp [startsWithB] at h2
      | cons c ss =>
        simp only [startsWithB, Bool.and_eq_true, decide_eq_true_eq] at h1 h2 ⊢
        exact ⟨h1.1.trans h2.1, ih qs ss h1.2 h2.2⟩

theorem removed_implies_excluded (n : Bytes) (h : removedName n = true) :
    hashExcluded n = true := by
  unfold removedName at h
  simp only [Bool.or_eq_true, beq_iff_eq] at h
  rcases h with ((h | h) | h) | h
  · subst h; decide
  · subst h; decide
  · subst h; decide
  · unfold hashExcluded
    have : startsWithB docPropsPre n = true :=
      startsWithB_trans _ _ _ (by decide) h
    simp [this]

theorem mem_insertSorted (x y : Bytes) (l : List Bytes) :
    y ∈ insertSorted x l ↔ y = x ∨ y ∈ l := by
  induction l with
  | nil => simp [insertSorted]
  | cons z zs ih =>
    rw [insertSorted]
    split_ifs with hle
    · simp [List.mem_cons]
    · simp only [List.mem_cons, ih]
      tauto

theorem mem_sortBytes (x : Bytes) (l : List Bytes) :
    x ∈ sortBytes l ↔ x ∈ l := by
  induction l with
  | nil => simp [sortBytes]
  | cons y ys ih =>
    rw [sortBytes, mem_insertSorted]
    simp [ih]

theorem filter_keep_of_imp (p q : Bytes → Bool) (l : List Bytes)
    (h : ∀ x, p x = true → q x = true) :
    (l.filter q).filter p = l.filter p := by
  induction l with
  | nil => simp
  | cons x xs ih =>
    by_cases hq : q x = true
    · simp only [List.filter_cons, hq, if_true]
      rw [ih]
    · have hp : p x = false := by
        cases hpx : p x with
        | true => exact absurd (h x hpx) (by simpa using hq)
        | false => rfl
      simp only [List.filter_cons, hp]
      cases hqx : q x with
      | true => exact absurd hqx (by simpa using hq)
      | false =>
        simp only [List.filter_cons, hqx, hp] at *
        exact ih

/-- C1 core: the hash byte stream is unchanged by cleaning.  The kept,
non-excluded parts survive with identical names and bytes, and everything the
cleaner removes or rewrites is excluded from the hash. -/
theorem officeHashStream_clean (a : Archive) :
    officeHashStream (officeClean a).1 = officeHashStream a := by
  unfold officeHashStream
  have hnames : ((officeClean a).1.map (fun e => e.1)).filter (fun n => !hashExcluded n)
      = (a.map (fun e => e.1)).filter (fun n => !hashExcluded n) := by
    unfold officeClean
    rw [officeCleanGo_names]
    exact filter_keep_of_imp _ _ _ (by
      intro x hx
      cases hr : removedName x with
      | false => rfl
      | true =>
        exfalso
        have := removed_implies_excluded x hr
        simp [this] at hx)
  rw [hnames]
  refine congrArg _ (List.map_congr_left ?_)
  intro n hn
  have hmem : n ∈ (a.map (fun e => e.1)).filter (fun n => !hashExcluded n) :=
    (mem_sortBytes _ _).mp hn
  have hex : hashExcluded n = false := by
    have := List.of_mem_filter hmem
    simpa using this
  have hrem : removedName n = false := by
    cases hr : removedName n with
    | false => rfl
    | true => exact absurd (removed_implies_excluded n hr) (by simp [hex])
  have hlk := lookupLast_officeClean a n hrem
  have hct : n ≠ ctName := by
    intro hc
    subst hc
    unfold hashExcluded at hex
    simp at hex
  have hrels : n ≠ relsName := by
    intro hc
    subst hc
    unfold hashExcluded at hex
    have : startsWithB relsPre relsName = true := by decide
    simp [this] at hex
  have htf : transformFor n (lookupLast a n) = lookupLast a n := by
    unfold transformFor
    rw [if_neg hct, if_neg hrels]
  rw [hlk, htf]

theorem filter_name_nil_of_not_mem (a : Archive) (n : Bytes)
    (h : n ∉ a.map (fun e => e.1)) :
    a.filter (fun e => e.1 == n) = [] := by
  induction a with
  | nil => simp
  | cons e rest ih =>
    have hne : (e.1 == n) = false := by
      refine beq_eq_false_iff_ne.mpr ?_
      intro hx
      exact h (by simp [hx])
    simp only [List.filter_cons, hne]
    exact ih (fun hm => h (by simp [hm]))

theorem lookupLast_self (a : Archive) (hnd : (a.map (fun e => e.1)).Nodup)
    (e : Bytes × PContent) (he : e ∈ a) :
    lookupLast a e.1 = e.2 := by
  induction a with
  | nil => simp at he
  | cons x rest ih =>
    rw [List.map_cons, List.nodup_cons] at hnd
    rcases List.mem_cons.mp he with rfl | hmem
    · unfold lookupLast
      simp only [List.filter_cons, beq_self_eq_true, if_true]
      rw [filter_name_nil_of_not_mem rest e.1 hnd.1]
      rfl
    · have hne : (x.1 == e.1) = false := by
        refine beq_eq_false_iff_ne.mpr ?_
        intro hx
        exact hnd.1 (hx ▸ (by exact List.mem_map.mpr ⟨e, hmem, rfl⟩))
      unfold lookupLast at ih ⊢
      simp only [List.filter_cons, hne]
      exact ih hnd.2 hmem

theorem officeCleanGo_eq_filterMap (orig b : Archive)
    (h : ∀ e ∈ b, lookupLast orig e.1 = e.2) :
    (officeCleanGo orig b).1 = b.filterMap (fun e =>
      if removedName e.1 then none else some (e.1, transformFor e.1 e.2)) := by
  induction b with
  | nil => simp [officeCleanGo]
  | cons e rest ih =>
    rw [officeCleanGo]
    by_cases hr : removedName e.1
    · rw [if_pos hr]
      dsimp only
      rw [List.filterMap_cons]
      simp only [hr, if_true]
      exact ih (fun x hx => h x (by simp [hx]))
    · rw [if_neg hr]
      dsimp only
      rw [List.filterMap_cons]
      simp only [hr, if_false]
      rw [h e (by simp)]
      rw [ih (fun x hx => h x (by simp [hx]))]
      rfl

theorem officeClean_second (a : Archive) : (officeClean (officeClean a).1).2 = 0 := by
  unfold officeClean
  rw [officeCleanGo_count]
  have hall : ∀ e ∈ (officeCleanGo a a).1, removedName e.1 = false := by
    intro e he
    have hm : e.1 ∈ ((officeCleanGo a a).1).map (fun e => e.1) :=
      List.mem_map.mpr ⟨e, he, rfl⟩
    rw [officeCleanGo_names] at hm
    have := List.of_mem_filter hm
    simpa using this
  have : (officeCleanGo a a).1.filter (fun e => removedName e.1) = [] := by
    rw [List.filter_eq_nil_iff]
    intro e he
    simp [hall e he]
  rw [this]
  rfl

/-! Format classifier and the CPython `zipfile` table-of-contents reader -/

/-- File types returned by `_file_type`. -/
inductive FileType where
  | jpeg | png | gif | pdf | rtf | docx | xlsx | pptx | doc | xls | ppt
  | word2003xml | other
deriving DecidableEq

/-- JPEG magic `FF D8 FF`. -/
def jpegMagic : Bytes := [255, 216, 255]

/-- PDF magic `%PDF-`. -/
def pdfMagic : Bytes := cb ['%','P','D','F','-']

/-- RTF magic, an opening brace followed by `\rtf`. -/
def rtfMagic : Bytes := cb ['\x7b','\\','r','t','f']

/-- ZIP local-file magic `PK`. -/
def pkMagic : Bytes := [80, 75]

/-- Little-endian 16-bit field at offset `i`. -/
def le16 (l : Bytes) (i : Nat) : Nat := l.getD i 0 + 256 * l.getD (i + 1) 0

/-- Little-endian 32-bit field at offset `i`. -/
def le32 (l : Bytes) (i : Nat) : Nat :=
  l.getD i 0 + 256 * l.getD (i + 1) 0 + 65536 * l.getD (i + 2) 0 +
  16777216 * l.getD (i + 3) 0

/-- End-of-central-directory signature `PK\x05\x06`. -/
def eocdSig : Bytes := [80, 75, 5, 6]

/-- Central-directory record signature `PK\x01\x02`. -/
def cdSig : Bytes := [80, 75, 1, 2]

/-- Rightmost index at which `pat` occurs in the list (Python `bytes.rfind`). -/
def rfindAux (pat : Bytes) : Bytes → Nat → Option Nat → Option Nat
  | [], _, best => best
  | s :: ss, i, best =>
    rfindAux pat ss (i + 1) (if startsWithB pat (s :: ss) then some i else best)

/-- Python `data.rfind(pat)`, `none` for not found. -/
def rfindPat (pat l : Bytes) : Option Nat := rfindAux pat l 0 none

/-- Model of CPython's `zipfile._EndRecData` for archives without Zip64
structures: either the file ends with a comment-free end-of-central-directory
record, or the record is found by a right-to-left search in the last 64 KiB.
Returns `(size_cd, offset_cd, location)`. -/
def zipEndRec (c : Bytes) : Option (Nat × Nat × Nat) :=
  if c.length < 22 then none
  else
    let tail := c.drop (c.length - 22)
    if startsWithB eocdSig tail && (tail.drop 20 == [0, 0]) then
      some (le32 tail 12, le32 tail 16, c.length - 22)
    else
      let maxStart := c.length - 65536 - 22
      let window := c.drop maxStart
      match rfindPat eocdSig window with
      | none => none
      | some start =>
        if window.length - start < 22 then none
        else
          let rec22 := (window.drop start).take 22
          some (le32 rec22 12, le32 rec22 16, maxStart + start)

/-- Central-directory walk of `zipfile._RealGetContents`: 46-byte records with
signature check and an extract-version bound, filename bytes collected (the
cp437/UTF-8 decodings are byte-identical for the ASCII names compared here),
extra fields and comments skipped.  The first argument is an iteration
budget: every record advances `total` by at least 46, so the loop runs at
most `size_cd + 1` times and the budget `zipNamelist` passes is never
exhausted. -/
def parseCd : Nat → Bytes → Nat → Nat → List Bytes → Option (List Bytes)
  | 0, _, _, _, _ => none
  | fuel + 1, rem, sizeCd, total, acc =>
    if total < sizeCd then
      if rem.length < 46 then none
      else
        let cd := rem.take 46
        if ¬ (startsWithB cdSig cd = true) then none
        else if 63 < cd.getD 6 0 then none
        else
          let fnLen := le16 cd 28
          let extraLen := le16 cd 30
          let commLen := le16 cd 32
          parseCd fuel ((rem.drop 46).drop (fnLen + extraLen + commLen)) sizeCd
            (total + (46 + fnLen + extraLen + commLen)) (acc ++ [(rem.drop 46).take fnLen])
    else some acc

/-- Model of `ZipFile(path).namelist()`: `none` stands for the constructor
raising (`BadZipFile` or a version error). -/
def zipNamelist (c : Bytes) : Option (List Bytes) :=
  match zipEndRec c with
  | none => none
  | some (sizeCd, offsetCd, loc) =>
    if ((loc : Int) - sizeCd - offsetCd) + offsetCd < 0 then none
    else parseCd (sizeCd + 1) ((c.drop (loc - sizeCd)).take sizeCd) sizeCd 0 []

/-- Part name `word/document.xml`. -/
def wordDocName : Bytes := cb ['w','o','r','d','/','d','o','c','u','m','e','n','t','.','x','m','l']

/-- Part name `xl/workbook.xml`. -/
def xlWbName : Bytes := cb ['x','l','/','w','o','r','k','b','o','o','k','.','x','m','l']

/-- Part name `ppt/presentation.xml`. -/
def pptPresName : Bytes := cb ['p','p','t','/','p','r','e','s','e','n','t','a','t','i','o','n','.','x','m','l']

/-- Transliteration of `_detect_ooxml_from_zip`: probes the archive name list;
any exception yields `none`. -/
def detectOoxmlFromZip (c : Bytes) : Option FileType :=
  match zipNamelist c with
  | none => none
  | some names =>
    if wordDocName ∈ names then some .docx
    else if xlWbName ∈ names then some .xlsx
    else if pptPresName ∈ names then some .pptx
    else none

/-- Word-2003 marker `w:wordDocument`. -/
def w2003Pat1 : Bytes := cb ['w',':','w','o','r','d','D','o','c','u','m','e','n','t']

/-- Word-2003 marker `wordml`. -/
def w2003Pat2 : Bytes := cb ['w','o','r','d','m','l']

/-- Word-2003 namespace marker. -/
def w2003Pat3 : Bytes :=
  cb ['h','t','t','p',':','/','/','s','c','h','e','m','a','s','.','m','i','c','r','o','s','o','f','t','.','c','o','m','/','o','f','f','i','c','e','/','w','o','r','d']

/-- Transliteration of `_is_word2003xml`: substring tests over the first 8 KiB
(the UTF-8 decode with `errors='ignore'` is modelled as a raw byte search,
which agrees on the ASCII markers searched for). -/
def isWord2003xml (c : Bytes) : Bool :=
  containsB w2003Pat1 (c.take 8192) ||
  (containsB w2003Pat2 (c.take 8192) && containsB w2003Pat3 (c.take 8192))

/-- Python `bytes.lstrip()`: strips ASCII whitespace on the left. -/
def lstripWs : Bytes → Bytes
  | [] => []
  | b :: r =>
    if b = 32 ∨ b = 9 ∨ b = 10 ∨ b = 13 ∨ b = 11 ∨ b = 12 then lstripWs r
    else b :: r

/-- Extension `.doc`. -/
def extDoc : List Char := ['.','d','o','c']

/-- Extension `.xls`. -/
def extXls : List Char := ['.','x','l','s']

/-- Extension `.ppt`. -/
def extPpt : List Char := ['.','p','p','t']

/-- Extension `.docx`. -/
def extDocx : List Char := ['.','d','o','c','x']

/-- Extension `.xlsx`. -/
def extXlsx : List Char := ['.','x','l','s','x']

/-- Extension `.pptx`. -/
def extPptx : List Char := ['.','p','p','t','x']

/-- Opening of an XML declaration. -/
def xmlDeclPre : Bytes := cb ['<','?','x','m','l']

/-- Tail of `_file_type` after the magic checks: extension dispatch, then the
Word-2003-XML sniff on an XML-looking head. -/
def fileTypeTail (c : Bytes) (ext : List Char) : FileType :=
  if ext = extDoc then .doc
  else if ext = extXls then .xls
  else if ext = extPpt then .ppt
  else if ext = extDocx then .docx
  else if ext = extXlsx then .xlsx
  else if ext = extPptx then .pptx
  else if startsWithB xmlDeclPre (lstripWs (c.take 64)) ||
      startsWithB (cb ['<']) (lstripWs (c.take 64)) then
    if isWord2003xml c then .word2003xml else .other
  else .other

/-- Transliteration of `_file_type`: magic prefixes over the first 64 bytes,
the ZIP probe for `PK` content under a legacy Office extension, extension
dispatch, and the Word-2003-XML sniff.  The extension is the (lower-cased)
`Path.suffix` of the file name. -/
def fileType (c : Bytes) (ext : List Char) : FileType :=
  if startsWithB jpegMagic (c.take 64) then .jpeg
  else if startsWithB pngSig (c.take 64) then .png
  else if startsWithB gif87 (c.take 64) || startsWithB gif89 (c.take 64) then .gif
  else if startsWithB pdfMagic (c.take 64) then .pdf
  else if startsWithB rtfMagic (c.take 64) then .rtf
  else if startsWithB pkMagic (c.take 64) ∧ (ext = extDoc ∨ ext = extXls ∨ ext = extPpt) then
    match detectOoxmlFromZip c with
    | some t => t
    | none => fileTypeTail c ext
  else fileTypeTail c ext

/-! Backup and legacy Office (OLE) model -/

/-- Presence of the two property-set streams at the root of an OLE storage. -/
structure OleState where
  hasSum : Bool
  hasDocsum : Bool
deriving DecidableEq

/-- Observable outcome of `_clean_ole_props`: the streams afterwards, the
changed flag, whether a backup copy was made, and whether any code path
removed it again. -/
structure OleCleanResult where
  state : OleState
  changed : Bool
  backupMade : Bool
  backupRemoved : Bool
deriving DecidableEq

/-- Transliteration of `_clean_ole_props` over the OLE abstraction: when a
backup is requested it is copied first (the `shutil.copy2` is modelled as
succeeding), the storage is opened read-write, `DestroyElement` succeeds
exactly for the streams present, and no code path deletes the backup. -/
def cleanOleProps (st : OleState) (backup : Bool) : OleCleanResult :=
  { state := ⟨false, false⟩
    changed := st.hasSum || st.hasDocsum
    backupMade := backup
    backupRemoved := false }

/-! Dispatcher -/

/-- Outcome of one `clean_file_metadata` call in the configuration without
the optional capabilities (ExifTool, pikepdf, pywin32): `result` carries the
changed flag and the file bytes after the call for the byte-modelled
branches, `officeRewritten` marks a successful OOXML rewrite (whose part
level content is given by `officeClean`), `unmodeled` is the Word-2003-XML
branch (ElementTree based, outside this byte-level model), and `exn` is a
propagated exception, raised before any file replacement. -/
inductive COutcome where
  | result (changed : Bool) (after : Bytes)
  | officeRewritten (removed : Nat)
  | unmodeled
  | exn
deriving DecidableEq

/-- Number of entries `_clean_office_props` removes, from the name list. -/
def countRemovedNames (names : List Bytes) : Nat :=
  (names.filter (fun n => removedName n)).length

/-- Transliteration of `clean_file_metadata` without optional capabilities:
RTF and Word-2003 XML first, then legacy Office (unavailable without
pywin32), then the native OOXML rewrite, then the native image cleaners, and
`False` for PDF (pikepdf missing) and unknown types. -/
def cleanFileMetadata (c : Bytes) (ext : List Char) : COutcome :=
  match fileType c ext with
  | .word2003xml => .unmodeled
  | .rtf =>
    let p := cleanRtfBytes c
    .result p.2 p.1
  | .doc => .result false c
  | .xls => .result false c
  | .ppt => .result false c
  | .docx =>
    match zipNamelist c with
    | none => .exn
    | some names => .officeRewritten (countRemovedNames names)
  | .xlsx =>
    match zipNamelist c with
    | none => .exn
    | some names => .officeRewritten (countRemovedNames names)
  | .pptx =>
    match zipNamelist c with
    | none => .exn
    | some names => .officeRewritten (countRemovedNames names)
  | .jpeg =>
    match cleanJpeg c with
    | .error _ => .exn
    | .ok p => .result p.2 (if p.2 then p.1 else c)
  | .png =>
    let p := cleanPng c
    .result p.2 (if p.2 then p.1 else c)
  | .gif =>
    match cleanGif c with
    | .error _ => .exn
    | .ok p => .result p.2 (if p.2 then p.1 else c)
  | .pdf => .result false c
  | .other => .result false c

/-- Whether the call replaced the file on disk: only a changed result or a
changed OOXML rewrite does; an exception never does (the temp file is
discarded and the original left in place).  The unmodelled branch is treated
conservatively as touching the disk. -/
def touchesDisk : COutcome → Bool
  | .result ch _ => ch
  | .officeRewritten r => decide (0 < r)
  | .unmodeled => true
  | .exn => false

/-! Support lemmas for the claim theorems -/

theorem startsWithB_subset (p s : Bytes) (h : startsWithB p s = true) :
    ∀ x ∈ p, x ∈ s := by
  induction p generalizing s with
  | nil => simp
  | cons a ps ih =>
    cases s with
    | nil => simp [startsWithB] at h
    | cons b ss =>
      simp only [startsWithB, Bool.and_eq_true, decide_eq_true_eq] at h
      intro x hx
      rcases List.mem_cons.mp hx with rfl | hx
      · simp [h.1]
      · exact List.mem_cons_of_mem _ (ih ss h.2 x hx)

theorem rfindAux_none_of_not_mem (pat l : Bytes) (x : Nat) (hx : x ∈ pat)
    (hnx : x ∉ l) : ∀ i, rfindAux pat l i none = none := by
  induction l with
  | nil => intro i; rfl
  | cons s ss ih =>
    intro i
    rw [rfindAux]
    have hsw : startsWithB pat (s :: ss) = false := by
      cases hs : startsWithB pat (s :: ss) with
      | false => rfl
      | true => exact absurd (startsWithB_subset _ _ hs x hx) hnx
    rw [if_neg (by rw [hsw]; exact Bool.false_ne_true)]
    exact ih (fun hm => hnx (List.mem_cons_of_mem _ hm)) (i + 1)

theorem rfindPat_none_of_not_mem (pat l : Bytes) (x : Nat) (hx : x ∈ pat)
    (hnx : x ∉ l) : rfindPat pat l = none :=
  rfindAux_none_of_not_mem pat l x hx hnx 0

theorem fileTypeTail_congr (c₁ c₂ : Bytes) (ext : List Char)
    (h64 : c₁.take 64 = c₂.take 64) (h8 : c₁.take 8192 = c₂.take 8192) :
    fileTypeTail c₁ ext = fileTypeTail c₂ ext := by
  unfold fileTypeTail isWord2003xml
  rw [h64, h8]

/-! Concrete inputs used by the claim theorems -/

/-- Local file header of a stored 8 KiB `word/document.xml` entry. -/
def zipLh : Bytes := [80,75,3,4,20,0,0,0,0,0,0,0,0,0,0,0,0,0,0,32,0,0,0,32,0,0,17,0,0,0]

/-- Central-directory record for that entry. -/
def zipCdRec : Bytes := [80,75,1,2,20,0,20,0,0,0,0,0,0,0,0,0,0,0,0,0,0,32,0,0,0,32,0,0,17,0,0,0,0,0,0,0,0,0,0,0,0,0,0,0,0,0]

/-- End-of-central-directory record: one entry, `size_cd = 63`,
`offset_cd = 8239`, no comment. -/
def zipEocdRec : Bytes := [80,75,5,6,0,0,0,0,1,0,1,0,63,0,0,0,47,32,0,0,0,0]

/-- First 47 bytes of the archive: local header and entry name. -/
def c3Pre : Bytes := zipLh ++ wordDocName

/-- Last 85 bytes: central directory and end record. -/
def c3Post : Bytes := zipCdRec ++ wordDocName ++ zipEocdRec

/-- A well-formed 8324-byte ZIP archive holding `word/document.xml` as an
8 KiB stored entry (validated against CPython's `zipfile`). -/
def c3FileA : Bytes := c3Pre ++ (List.replicate 8192 0 ++ c3Post)

/-- The same first 8 KiB, with the central-directory region zeroed out: not
a readable ZIP archive. -/
def c3FileB : Bytes := c3FileA.take 8192 ++ List.replicate 132 0

/-- RTF text `{\rtf1 {\inf{\info x}o} }`: stripping the inner info group
splices a new `{\info}` group into the output. -/
def rtfC5 : Bytes := [123, 92, 114, 116, 102, 49, 32, 123, 92, 105, 110, 102, 123, 92, 105, 110, 102, 111, 32, 120, 125, 111, 125, 32, 125]

/-- First clean of `rtfC5`: `{\rtf1 {\info} }`. -/
def rtfC5a : Bytes := [123, 92, 114, 116, 102, 49, 32, 123, 92, 105, 110, 102, 111, 125, 32, 125]

/-- Second clean of `rtfC5`: `{\rtf1  }`. -/
def rtfC5b : Bytes := [123, 92, 114, 116, 102, 49, 32, 32, 125]

/-- RTF text `{\rtf1` LF `{\info x}}`: a lone LF outside the info group. -/
def rtfC7 : Bytes := [123, 92, 114, 116, 102, 49, 10, 123, 92, 105, 110, 102, 111, 32, 120, 125, 125]

/-- What cleaning `rtfC7` writes: the LF comes back as CRLF. -/
def rtfC7out : Bytes := [123, 92, 114, 116, 102, 49, 13, 10, 125]

/-- The drop-only rewrite of `rtfC7`: the LF kept verbatim. -/
def rtfC7verb : Bytes := [123, 92, 114, 116, 102, 49, 10, 125]

/-- GIF89a, 1x1 logical screen, no color table, a comment extension, then
the unexpected introducer byte 0. -/
def gifC2 : Bytes := [71, 73, 70, 56, 57, 97, 1, 0, 1, 0, 0, 0, 0, 33, 254, 0, 0]

/-- JPEG: SOI, an Exif APP1 segment, then SOS. -/
def jpegEx : Bytes := [255, 216, 255, 225, 0, 8, 69, 120, 105, 102, 0, 0, 255, 218, 1]

/-- `jpegEx` after cleaning: SOI then the SOS tail. -/
def jpegExOut : Bytes := [255, 216, 255, 218, 1]

/-- JPEG: SOI then an APP0 segment whose length field is zero. -/
def jpegLen0 : Bytes := [255, 216, 255, 224, 0, 0]

/-- JPEG bytes (SOI, one table segment, SOS): not a ZIP archive. -/
def jpegDocxC : Bytes := [255, 216, 255, 219, 0, 4, 1, 2, 255, 218, 9, 9]

/-- Archive with one metadata part and one content part. -/
def officeC1 : Archive := [(coreName, PContent.raw [1]),
  ([119, 47, 100], PContent.raw [2, 3])]

/-- Archive exercising both XML rewrites and both removal outcomes. -/
def officeC8 : Archive := [
  (ctName, PContent.xml ⟨[84], [], [⟨ctOverrideTag, [(partNameKey, slashDocProps ++ [97])], []⟩,
    ⟨ctOverrideTag, [(partNameKey, [47, 119])], []⟩]⟩),
  (relsName, PContent.xml ⟨[82], [], [⟨relRelationshipTag, [(targetKey, docPropsPre ++ [99])], []⟩]⟩),
  (coreName, PContent.raw [1]),
  ([119, 47, 100], PContent.raw [2, 3])]

/-! Evaluations of the handlers on the concrete inputs -/

theorem rtfC5_eval : cleanRtfBytes rtfC5 = (rtfC5a, true) := by
  simp [cleanRtfBytes, rtfC5, rtfC5a, nlDecode, rtfStripInfo, groupSkip, crlfEncode]
  all_goals decide

theorem rtfC5a_eval : cleanRtfBytes rtfC5a = (rtfC5b, true) := by
  simp [cleanRtfBytes, rtfC5a, rtfC5b, nlDecode, rtfStripInfo, groupSkip, crlfEncode]
  all_goals decide

theorem rtfC7_changed : (cleanRtfBytes rtfC7).2 = true := by
  simp [cleanRtfBytes, rtfC7, nlDecode, rtfStripInfo, groupSkip, crlfEncode]
  all_goals decide

theorem rtfC7_eval : cleanRtfBytes rtfC7 = (rtfC7out, true) := by
  simp [cleanRtfBytes, rtfC7, rtfC7out, nlDecode, rtfStripInfo, groupSkip, crlfEncode]
  all_goals decide

theorem rtfC7_keep : rtfKeep rtfC7 = rtfC7verb := by
  simp [rtfKeep, rtfC7, rtfC7verb, rtfSegs, groupSkip, groupTake]
  all_goals decide

theorem gifC2_eval : cleanGif gifC2 = .ok (gifC2.take 13, true) := by
  simp [cleanGif, gifC2, gifLoop, subBlocksSkip, gifGctSize, gifPacked]
  all_goals decide

theorem jpegEx_eval : cleanJpeg jpegEx = .ok (jpegExOut, true) := by
  simp [cleanJpeg, jpegEx, jpegExOut, jpegLoop, jpegDropSeg]
  all_goals decide

theorem jpegDocxC_eval : cleanJpeg jpegDocxC = .ok (jpegDocxC, false) := by
  simp [cleanJpeg, jpegDocxC, jpegLoop, jpegDropSeg]

/-! Structure of the two classifier inputs of claim C3 -/

theorem c3FileA_length : c3FileA.length = 8324 := by
  have h1 : c3Pre.length = 47 := by decide
  have h2 : c3Post.length = 85 := by decide
  show (c3Pre ++ (List.replicate 8192 0 ++ c3Post)).length = 8324
  rw [List.length_append, List.length_append, List.length_replicate, h1, h2]

theorem c3FileA_take8192 : c3FileA.take 8192 = c3Pre ++ List.replicate 8145 0 := by
  show (c3Pre ++ (List.replicate 8192 0 ++ c3Post)).take 8192 = _
  rw [List.take_append_eq_append_take]
  rw [List.take_of_length_le (by decide : c3Pre.length ≤ 8192)]
  rw [show 8192 - c3Pre.length = 8145 from by decide]
  rw [List.take_append_eq_append_take]
  rw [List.take_replicate]
  rw [List.length_replicate]
  rw [show (8145 : Nat) - 8192 = 0 from by norm_num]
  rw [List.take_zero, List.append_nil]
  rw [show min 8145 8192 = 8145 from by norm_num]

theorem c3FileB_take8192 : c3FileB.take 8192 = c3FileA.take 8192 := by
  have hl : (c3FileA.take 8192).length = 8192 := by
    rw [List.length_take, c3FileA_length]
    omega
  show (c3FileA.take 8192 ++ List.replicate 132 0).take 8192 = _
  rw [List.take_append_eq_append_take, hl]
  rw [List.take_of_length_le (le_of_eq hl)]
  rw [show (8192 : Nat) - 8192 = 0 from by norm_num]
  rw [List.take_zero, List.append_nil]

theorem c3FileA_take64 : c3FileA.take 64 = c3Pre ++ List.replicate 17 0 := by
  have h := congrArg (List.take 64) c3FileA_take8192
  rw [List.take_take, show (64 : Nat) ⊓ 8192 = 64 from by omega] at h
  rw [h, List.take_append_eq_append_take]
  rw [List.take_of_length_le (by decide : c3Pre.length ≤ 64)]
  rw [show 64 - c3Pre.length = 17 from by decide]
  rw [List.take_replicate, show (17 : Nat) ⊓ 8145 = 17 from by omega]

theorem c3FileB_take64 : c3FileB.take 64 = c3Pre ++ List.replicate 17 0 := by
  have h := congrArg (List.take 64) c3FileB_take8192
  rw [List.take_take, List.take_take, show (64 : Nat) ⊓ 8192 = 64 from by omega] at h
  rw [h, c3FileA_take64]

theorem c3FileA_drop_eocd : c3FileA.drop (8324 - 22) = zipEocdRec := by
  rw [show (8324 - 22 : Nat) = 8302 from by norm_num]
  show (c3Pre ++ (List.replicate 8192 0 ++ c3Post)).drop 8302 = _
  rw [List.drop_append_eq_append_drop]
  rw [List.drop_eq_nil_of_le (by decide : c3Pre.length ≤ 8302)]
  rw [show 8302 - c3Pre.length = 8255 from by decide]
  rw [List.drop_append_eq_append_drop]
  rw [List.length_replicate]
  rw [List.drop_eq_nil_of_le (by rw [List.length_replicate]; norm_num :
    (List.replicate 8192 (0 : Nat)).length ≤ 8255)]
  rw [show (8255 : Nat) - 8192 = 63 from by norm_num]
  rw [List.nil_append, List.nil_append]
  decide

theorem c3FileA_endRec : zipEndRec c3FileA = some (63, 8239, 8302) := by
  unfold zipEndRec
  rw [c3FileA_length]
  rw [if_neg (by norm_num : ¬ (8324 < 22))]
  dsimp only
  rw [c3FileA_drop_eocd]
  rw [if_pos (by decide : (startsWithB eocdSig zipEocdRec &&
      (zipEocdRec.drop 20 == [0, 0])) = true)]
  decide

theorem c3FileA_drop_cd : (c3FileA.drop (8302 - 63)).take 63 = zipCdRec ++ wordDocName := by
  rw [show (8302 - 63 : Nat) = 8239 from by norm_num]
  have hd : c3FileA.drop 8239 = c3Post := by
    show (c3Pre ++ (List.replicate 8192 0 ++ c3Post)).drop 8239 = _
    rw [List.drop_append_eq_append_drop]
    rw [List.drop_eq_nil_of_le (by decide : c3Pre.length ≤ 8239)]
    rw [show 8239 - c3Pre.length = 8192 from by decide]
    rw [List.drop_append_eq_append_drop]
    rw [List.drop_eq_nil_of_le (by rw [List.length_replicate] :
      (List.replicate 8192 (0 : Nat)).length ≤ 8192)]
    rw [List.length_replicate]
    rw [show (8192 : Nat) - 8192 = 0 from by norm_num]
    rw [List.drop_zero, List.nil_append, List.nil_append]
  rw [hd]
  decide

theorem c3FileA_namelist : zipNamelist c3FileA = some [wordDocName] := by
  unfold zipNamelist
  rw [c3FileA_endRec]
  dsimp only
  split_ifs with hneg
  · exfalso
    omega
  · rw [c3FileA_drop_cd]
    decide

theorem c3FileA_detect : detectOoxmlFromZip c3FileA = some FileType.docx := by
  unfold detectOoxmlFromZip
  rw [c3FileA_namelist]
  dsimp only
  rw [if_pos (by decide : wordDocName ∈ [wordDocName])]

theorem c3FileA_type : fileType c3FileA extDoc = FileType.docx := by
  unfold fileType
  rw [c3FileA_take64]
  rw [if_neg (by decide : ¬ (startsWithB jpegMagic (c3Pre ++ List.replicate 17 0) = true))]
  rw [if_neg (by decide : ¬ (startsWithB pngSig (c3Pre ++ List.replicate 17 0) = true))]
  rw [if_neg (by decide : ¬ ((startsWithB gif87 (c3Pre ++ List.replicate 17 0) ||
      startsWithB gif89 (c3Pre ++ List.replicate 17 0)) = true))]
  rw [if_neg (by decide : ¬ (startsWithB pdfMagic (c3Pre ++ List.replicate 17 0) = true))]
  rw [if_neg (by decide : ¬ (startsWithB rtfMagic (c3Pre ++ List.replicate 17 0) = true))]
  rw [if_pos (show startsWithB pkMagic (c3Pre ++ List.replicate 17 0) = true ∧
      (extDoc = extDoc ∨ extDoc = extXls ∨ extDoc = extPpt) from ⟨by decide, Or.inl rfl⟩)]
  rw [c3FileA_detect]

theorem c3FileB_length : c3FileB.length = 8324 := by
  show (c3FileA.take 8192 ++ List.replicate 132 0).length = 8324
  rw [List.length_append, List.length_take, c3FileA_length, List.length_replicate]
  omega

theorem c3FileB_eq : c3FileB = (c3Pre ++ List.replicate 8145 0) ++ List.replicate 132 0 := by
  show c3FileA.take 8192 ++ List.replicate 132 0 = _
  rw [c3FileA_take8192]

theorem c3FileB_no5 : (5 : Nat) ∉ c3FileB := by
  intro hm
  rw [c3FileB_eq] at hm
  rcases List.mem_append.mp hm with hm | hm
  · rcases List.mem_append.mp hm with hm | hm
    · exact absurd hm (by decide)
    · exact absurd (List.eq_of_mem_replicate hm) (by norm_num)
  · exact absurd (List.eq_of_mem_replicate hm) (by norm_num)

theorem c3FileB_rfind : rfindPat eocdSig c3FileB = none :=
  rfindPat_none_of_not_mem eocdSig c3FileB 5 (by decide) c3FileB_no5

theorem c3FileB_drop_tail : c3FileB.drop (8324 - 22) = List.replicate 22 0 := by
  rw [show (8324 - 22 : Nat) = 8302 from by norm_num]
  rw [c3FileB_eq]
  rw [List.drop_append_eq_append_drop]
  rw [List.drop_eq_nil_of_le (by
    rw [List.length_append, List.length_replicate]
    rw [show c3Pre.length = 47 from by decide]
    norm_num : ((c3Pre ++ List.replicate 8145 0)).length ≤ 8302)]
  rw [List.length_append, List.length_replicate, show c3Pre.length = 47 from by decide]
  rw [show (8302 : Nat) - (47 + 8145) = 110 from by norm_num]
  rw [List.drop_replicate]
  rw [List.nil_append]

theorem c3FileB_endRec : zipEndRec c3FileB = none := by
  unfold zipEndRec
  rw [c3FileB_length]
  rw [if_neg (by norm_num : ¬ (8324 < 22))]
  dsimp only
  rw [c3FileB_drop_tail]
  rw [if_neg (by decide : ¬ ((startsWithB eocdSig (List.replicate 22 0) &&
      ((List.replicate 22 0).drop 20 == [0, 0])) = true))]
  rw [show (8324 - 65536 - 22 : Nat) = 0 from by norm_num]
  rw [List.drop_zero]
  rw [c3FileB_rfind]

theorem c3FileB_type : fileType c3FileB extDoc = FileType.doc := by
  unfold fileType
  rw [c3FileB_take64]
  rw [if_neg (by decide : ¬ (startsWithB jpegMagic (c3Pre ++ List.replicate 17 0) = true))]
  rw [if_neg (by decide : ¬ (startsWithB pngSig (c3Pre ++ List.replicate 17 0) = true))]
  rw [if_neg (by decide : ¬ ((startsWithB gif87 (c3Pre ++ List.replicate 17 0) ||
      startsWithB gif89 (c3Pre ++ List.replicate 17 0)) = true))]
  rw [if_neg (by decide : ¬ (startsWithB pdfMagic (c3Pre ++ List.replicate 17 0) = true))]
  rw [if_neg (by decide : ¬ (startsWithB rtfMagic (c3Pre ++ List.replicate 17 0) = true))]
  rw [if_pos (show startsWithB pkMagic (c3Pre ++ List.replicate 17 0) = true ∧
      (extDoc = extDoc ∨ extDoc = extXls ∨ extDoc = extPpt) from ⟨by decide, Or.inl rfl⟩)]
  rw [show detectOoxmlFromZip c3FileB = none from by
    unfold detectOoxmlFromZip
    rw [show zipNamelist c3FileB = none from by
      unfold zipNamelist
      rw [c3FileB_endRec]]]
  dsimp only
  unfold fileTypeTail
  rw [if_pos rfl]

/-! The claim theorems -/

/-- C1: for every OOXML archive, the content hash computed by
`_hash_office_content` over the non-metadata parts (docProps/, relationship
parts and `[Content_Types].xml` excluded, kept names sorted, each part
hashed as its name then its bytes) is the same before and after
`_clean_office_props` rewrites the archive, in particular whenever the
rewrite removed something (`changed = true`). -/
theorem C1_office_hash_preserved (a : Archive) (_h : 0 < (officeClean a).2) :
    officeHashStream (officeClean a).1 = officeHashStream a :=
  officeHashStream_clean a

/-- C1 witness: a concrete archive whose clean removes one part and keeps
the hash stream. -/
theorem C1_office_hash_preserved_witness :
    0 < (officeClean officeC1).2 ∧
    officeHashStream (officeClean officeC1).1 = officeHashStream officeC1 :=
  ⟨by decide, C1_office_hash_preserved officeC1 (by decide)⟩

/-- C2: the claim says an unexpected block-introducer byte aborts GIF
cleaning with `changed = false` and the file unmodified.  In the code the
abort is a bare `break`: on `gifC2` (header, a comment extension, then the
unexpected byte 0) the walk first drops the comment, so it leaves the loop
with `changed = true` and the truncated 13-byte copy is committed over the
original file — the dispatcher reports a change and replaces the file. -/
theorem C2_gif_unexpected_byte_commits_truncation :
    cleanFileMetadata gifC2 [] = COutcome.result true (gifC2.take 13) ∧
    gifC2.take 13 ≠ gifC2 ∧
    touchesDisk (cleanFileMetadata gifC2 []) = true := by
  have hm : cleanFileMetadata gifC2 [] = COutcome.result true (gifC2.take 13) := by
    unfold cleanFileMetadata
    rw [show fileType gifC2 [] = FileType.gif from by decide]
    dsimp only
    rw [gifC2_eval]
    rfl
  exact ⟨hm, by decide, by rw [hm]; rfl⟩

/-- C3 counterexample: two files that agree byte-for-byte on their first
8 KiB and carry the same `.doc` extension, yet classify differently — the
ZIP probe reads the central directory at the end of the file, beyond the
first 8 KiB. -/
theorem C3_classifier_reads_zip_tail_counterexample :
    c3FileA.take 8192 = c3FileB.take 8192 ∧
    fileType c3FileA extDoc = FileType.docx ∧
    fileType c3FileB extDoc = FileType.doc :=
  ⟨c3FileB_take8192.symm, c3FileA_type, c3FileB_type⟩

/-- C3 amended: classification depends only on the first 8 KiB and the
extension except through the ZIP probe, i.e. for inputs that do not enter
the probe (content not starting `PK`, or extension outside
`.doc`/`.xls`/`.ppt`) equal first-8-KiB prefixes give equal types. -/
theorem C3_classification_eight_kib_amended (c₁ c₂ : Bytes) (ext : List Char)
    (h8 : c₁.take 8192 = c₂.take 8192)
    (hpk : ¬ (startsWithB pkMagic (c₁.take 64) = true ∧
      (ext = extDoc ∨ ext = extXls ∨ ext = extPpt))) :
    fileType c₁ ext = fileType c₂ ext := by
  have h64 : c₁.take 64 = c₂.take 64 := by
    have h := congrArg (List.take 64) h8
    rwa [List.take_take, List.take_take, show (64 : Nat) ⊓ 8192 = 64 from by omega] at h
  have htail := fileTypeTail_congr c₁ c₂ ext h64 h8
  unfold fileType
  rw [h64, htail]
  by_cases hc : (startsWithB pkMagic (c₂.take 64) = true ∧
      (ext = extDoc ∨ ext = extXls ∨ ext = extPpt))
  · exact absurd (by rw [h64]; exact hc) hpk
  · simp only [if_neg hc]

/-- C3 witness: two all-zero files of different lengths, equal on the first
8 KiB, outside the ZIP probe, classified alike. -/
theorem C3_classification_eight_kib_amended_witness :
    (List.replicate 8300 (0 : Nat)).take 8192 = (List.replicate 8400 (0 : Nat)).take 8192 ∧
    ¬ (startsWithB pkMagic ((List.replicate 8300 (0 : Nat)).take 64) = true ∧
      (([] : List Char) = extDoc ∨ ([] : List Char) = extXls ∨ ([] : List Char) = extPpt)) ∧
    fileType (List.replicate 8300 0) [] = fileType (List.replicate 8400 0) [] := by
  refine ⟨?_, ?_, ?_⟩
  · rw [List.take_replicate, List.take_replicate]
    norm_num
  · intro h
    rcases h.2 with h2 | h2 | h2 <;> exact absurd h2 (by decide)
  · exact C3_classification_eight_kib_amended _ _ []
      (by rw [List.take_replicate, List.take_replicate]; norm_num)
      (by intro h; rcases h.2 with h2 | h2 | h2 <;> exact absurd h2 (by decide))

/-- C4 amended: on every input, the JPEG cleaner agrees with the claim's
segment-level semantics — parse the marker stream after SOI into segments,
drop exactly the APP1 Exif/XMP and APP13 Photoshop segments, copy every
other segment and the verbatim tail from SOS on, report changed iff a
segment was dropped — with the parse raising on a zero length field. -/
theorem C4_jpeg_segment_semantics_amended (s : Bytes) : cleanJpeg s = jpegSpec s := by
  unfold cleanJpeg jpegSpec
  by_cases hs : s.take 2 = [255, 216]
  · rw [if_pos hs, if_pos hs, jpegLoop_eq_spec]
    cases hp : parseJpeg (s.drop 2) with
    | error e => rfl
    | ok p => rfl
  · rw [if_neg hs, if_neg hs]

/-- C4 counterexample: a JPEG input (starting FF D8) on which cleaning does
not return a drop/copy result at all: a zero length field raises
`ValueError`, while the claim's reading would copy the non-metadata APP0
segment unchanged. -/
theorem C4_jpeg_zero_length_counterexample :
    jpegLen0.take 2 = [255, 216] ∧ cleanJpeg jpegLen0 = .error () := by
  refine ⟨by decide, ?_⟩
  simp [cleanJpeg, jpegLen0, jpegLoop]

/-- C5 counterexample: cleaning is not idempotent for RTF.  On `rtfC5` the
first `clean_file_metadata` reports a change, and a second call on the
rewritten file reports a change again (the stripped text contains a newly
spliced `{\info}` group), contradicting `changed = false` on re-clean. -/
theorem C5_rtf_not_idempotent_counterexample :
    cleanFileMetadata rtfC5 [] = COutcome.result true rtfC5a ∧
    cleanFileMetadata rtfC5a [] = COutcome.result true rtfC5b := by
  constructor
  · unfold cleanFileMetadata
    rw [show fileType rtfC5 [] = FileType.rtf from by decide]
    dsimp only
    rw [rtfC5_eval]
  · unfold cleanFileMetadata
    rw [show fileType rtfC5a [] = FileType.rtf from by decide]
    dsimp only
    rw [rtfC5a_eval]

/-- C5 amended: idempotence does hold for the native JPEG, PNG, GIF and
OOXML cleaners: whenever a first clean succeeds, a second clean of the
resulting file succeeds and reports no change (for OOXML, removes zero
entries). -/
theorem C5_second_clean_unchanged_amended :
    (∀ (s out : Bytes) (c : Bool), cleanJpeg s = .ok (out, c) →
      ∃ o2, cleanJpeg (if c then out else s) = .ok (o2, false)) ∧
    (∀ s : Bytes, (cleanPng (if (cleanPng s).2 then (cleanPng s).1 else s)).2 = false) ∧
    (∀ (s out : Bytes) (c : Bool), cleanGif s = .ok (out, c) →
      ∃ o2, cleanGif (if c then out else s) = .ok (o2, false)) ∧
    (∀ a : Archive, (officeClean (officeClean a).1).2 = 0) :=
  ⟨cleanJpeg_second, cleanPng_second, cleanGif_second, officeClean_second⟩

/-- C5 witness: a JPEG whose first clean drops an Exif segment and whose
second clean reports no change. -/
theorem C5_second_clean_unchanged_amended_witness :
    cleanJpeg jpegEx = .ok (jpegExOut, true) ∧
    (∃ o2, cleanJpeg jpegExOut = .ok (o2, false)) :=
  ⟨jpegEx_eval, C5_second_clean_unchanged_amended.1 jpegEx jpegExOut true jpegEx_eval⟩

/-- C6: `_clean_ole_props` copies the backup before it opens the storage
and never deletes it: with both property streams absent and backup
requested, the call returns `changed = false` yet a fresh backup file
persists on disk, contradicting the claim that no new backup persists when
`changed = false`. -/
theorem C6_ole_backup_persists_when_unchanged :
    (cleanOleProps ⟨false, false⟩ true).changed = false ∧
    (cleanOleProps ⟨false, false⟩ true).backupMade = true ∧
    (cleanOleProps ⟨false, false⟩ true).backupRemoved = false :=
  ⟨rfl, rfl, rfl⟩

/-- C7 counterexample: on `rtfC7` cleaning reports a change and writes the
LF outside the info group back as CRLF, so the output differs from the
claim's identity-except-drop rewrite (`rtfKeep`) of the same input. -/
theorem C7_rtf_newline_rewritten_counterexample :
    cleanRtfBytes rtfC7 = (rtfC7out, true) ∧ rtfKeep rtfC7 = rtfC7verb ∧
    rtfC7out ≠ rtfC7verb :=
  ⟨rtfC7_eval, rtfC7_keep, by decide⟩

/-- C7 amended: whenever RTF cleaning rewrites the file, the result is the
identity-except-drop rewrite of the newline-normalized text (CR and CRLF
read as LF) with every `{\info …} ` group removed, re-encoded with CRLF
line endings; the file contains an info group in that normalized form. -/
theorem C7_rtf_strip_info_amended (s : Bytes) (h : (cleanRtfBytes s).2 = true) :
    (cleanRtfBytes s).1 = crlfEncode (rtfKeep (nlDecode s)) ∧
    rtfHasInfo (nlDecode s) = true := by
  unfold cleanRtfBytes at h ⊢
  dsimp only at h ⊢
  cases hc : (rtfStripInfo (nlDecode s)).2 with
  | false =>
    rw [if_neg (by rw [hc]; exact Bool.false_ne_true)] at h
    exact absurd h Bool.false_ne_true
  | true =>
    rw [if_pos rfl]
    constructor
    · dsimp only
      rw [rtfStripInfo_fst]
      rfl
    · unfold rtfHasInfo
      rw [← rtfStripInfo_snd]
      exact hc

/-- C7 witness: the amended characterization evaluated on `rtfC7`. -/
theorem C7_rtf_strip_info_amended_witness :
    (cleanRtfBytes rtfC7).2 = true ∧
    ((cleanRtfBytes rtfC7).1 = crlfEncode (rtfKeep (nlDecode rtfC7)) ∧
      rtfHasInfo (nlDecode rtfC7) = true) :=
  ⟨rtfC7_changed, C7_rtf_strip_info_amended rtfC7 rtfC7_changed⟩

/-- C8: for every OOXML archive with distinct part names (as the OPC format
requires), cleaning keeps the parts in order, removes exactly the
docProps parts (`core.xml`, `app.xml`, `custom.xml`, `thumbnail.*`),
rewrites `[Content_Types].xml` by dropping the Override children whose
PartName starts with `/docProps/` and `_rels/.rels` by dropping the
Relationship children whose Target starts with `docProps/`, and copies
every other part's content unchanged. -/
theorem C8_office_rewrite_exact (a : Archive) (hnd : (a.map (fun e => e.1)).Nodup) :
    (officeClean a).1 = a.filterMap (fun e =>
      if removedName e.1 then none else some (e.1, transformFor e.1 e.2)) := by
  unfold officeClean
  exact officeCleanGo_eq_filterMap a a (fun e he => lookupLast_self a hnd e he)

/-- C8 witness: the rewrite evaluated on an archive exercising both XML
transforms, a removed part and a kept part. -/
theorem C8_office_rewrite_exact_witness :
    (officeC8.map (fun e => e.1)).Nodup ∧
    (officeClean officeC8).1 = officeC8.filterMap (fun e =>
      if removedName e.1 then none else some (e.1, transformFor e.1 e.2)) :=
  ⟨by decide, C8_office_rewrite_exact officeC8 (by decide)⟩

/-- C9 counterexample: a path with extension `.docx` whose content is JPEG
rather than a readable ZIP archive: the magic check classifies it `jpeg`,
so `clean_file_metadata` returns a normal `(False, …)` result instead of
propagating an exception. -/
theorem C9_jpeg_content_counterexample :
    fileType jpegDocxC extDocx = FileType.jpeg ∧
    zipNamelist jpegDocxC = none ∧
    cleanFileMetadata jpegDocxC extDocx = COutcome.result false jpegDocxC := by
  refine ⟨by decide, by decide, ?_⟩
  unfold cleanFileMetadata
  rw [show fileType jpegDocxC extDocx = FileType.jpeg from by decide]
  dsimp only
  rw [jpegDocxC_eval]
  rfl

/-- C9 amended: whenever classification yields an OOXML type and the
content is not a readable ZIP archive, `clean_file_metadata` propagates the
`BadZipFile` exception instead of returning a result, and the file on disk
is left unmodified. -/
theorem C9_unreadable_zip_raises_amended (c : Bytes) (ext : List Char)
    (h1 : fileType c ext = FileType.docx ∨ fileType c ext = FileType.xlsx ∨
      fileType c ext = FileType.pptx)
    (h2 : zipNamelist c = none) :
    cleanFileMetadata c ext = COutcome.exn ∧
    touchesDisk (cleanFileMetadata c ext) = false := by
  have hm : cleanFileMetadata c ext = COutcome.exn := by
    unfold cleanFileMetadata
    rw [h2]
    rcases h1 with h | h | h <;> rw [h]
  exact ⟨hm, by rw [hm]; rfl⟩

/-- C9 witness: the empty file under a `.docx` extension raises. -/
theorem C9_unreadable_zip_raises_amended_witness :
    fileType [] extDocx = FileType.docx ∧ zipNamelist [] = none ∧
    (cleanFileMetadata [] extDocx = COutcome.exn ∧
      touchesDisk (cleanFileMetadata [] extDocx) = false) :=
  ⟨by decide, by decide, C9_unreadable_zip_raises_amended [] extDocx (Or.inl (by decide)) (by decide)⟩

/-- C10: both RTF scanners terminate on every finite input: the outer loops
of `_rtf_strip_info` and `_rtf_info_blocks` finish within `length + 1`
iterations (every iteration advances `i`), and the inner depth scan
finishes within `length + 1` iterations from any start index `j ≤ length`
(every iteration advances `j`, which is only bounded while below the
length) — lone backslashes and unterminated `{\info` groups included. -/
theorem C10_rtf_scanners_terminate (s : Bytes) :
    (rtfStripFuel s (s.length + 1) 0 [] false).isSome = true ∧
    (rtfBlocksFuel s (s.length + 1) 0 []).isSome = true ∧
    ∀ j depth : Nat, (rtfScanJ s (s.length + 1 + j) j depth).isSome = true :=
  ⟨rtfStripFuel_isSome s (s.length + 1) 0 [] false (by omega),
   rtfBlocksFuel_isSome s (s.length + 1) 0 [] (by omega),
   fun j depth => rtfScanJ_isSome s (s.length + 1 + j) j depth (by omega)⟩
